import Mathlib

/-!
# Shallow embedding of the gh-taghash resolution-and-cache engine

This file embeds the core of `pkg/resolver` (resolver.go, db.go, cache.go)
of thombashi/gh-taghash and proves properties of the embedded operations.

Modelling conventions:

* `time.Time` and `time.Duration` are modelled as `Int` (nanoseconds).
  Go's `int64` duration division truncates toward zero, which is `Int.tdiv`.
  The Go zero `time.Time` is modelled as `0`.
* The sqlite table of `GitTag` rows is a `List GitTag` in primary-key
  (insertion) order.  GORM's soft delete (`gorm.Model.DeletedAt`) is
  observationally equivalent to removal for every query issued by this
  package (all of them use the default scope, which excludes soft-deleted
  rows), so deletion is modelled as removal from the list.
* External collaborators (the paginated GraphQL transport, the
  gh-git-describe executor, sqlite write failures) are oracles passed in as
  data: the fetch is a list of page results, the git executor is a record of
  three functions, and a `createErr` function injects storage failures at
  the only point the code checks them (`tx.Create`; the code ignores the
  error of `tx.Updates` and only inspects `RowsAffected`).
* GORM struct conditions (`Where(&GitTag{...})`) drop zero-valued fields;
  `Updates(&GitTag{...})` assigns only non-zero fields.  Both are modelled
  field by field.
-/

namespace Taghash

/-! ## Errors, events, data model -/

/-- Error taxonomy of the resolver, tagged by origin so that distinct error
branches of the Go code stay distinguishable. -/
inductive ResolverError where
  | invalidInput : String → ResolverError
  | transport : String → ResolverError
  | storage : String → ResolverError
  | ttlNotFound : String → ResolverError
  | introspection : String → ResolverError
  deriving DecidableEq, Repr

/-- Observable side effects performed by a resolver call, in order. -/
inductive Event where
  | fetchPage
  | cacheRead
  | cacheWrite
  | cachePrune
  | gitRevParse
  | gitRevList
  | gitDescribe
  deriving DecidableEq, Repr

/-- One row of the `git_tags` table (db.go `GitTag`, gorm.Model fields and
soft-delete column omitted per the conventions above). -/
structure GitTag where
  repoID : String
  tag : String
  baseTag : String
  commitHash : String
  tagHash : String
  expiredAt : Int
  deriving DecidableEq, Repr

/-- The cache store: rows in primary-key order. -/
abbrev Store := List GitTag

/-- resolver.go `Hash`: the pair fetched per tag from the remote. -/
structure Hash where
  commitHash : String
  tagHash : String
  deriving DecidableEq, Repr

/-- One node of a GraphQL `refs` page: tag name, target Oid, and the
commit resource path whose last segment is the peeled commit hash. -/
structure RefNode where
  name : String
  oid : String
  commitResourcePath : String
  deriving DecidableEq, Repr

/-- cache.go `CacheTTL`. -/
structure CacheTTL where
  gitAliasTagTTL : Int
  gitFileTTL : Int
  gitTagTTL : Int
  queryTTL : Int
  deriving DecidableEq, Repr

/-- The gh-git-describe executor interface: each operation takes the
repository ID, the clone cache TTL, and the git arguments. -/
structure GitDescExecutor where
  runGitRevParse : String → Int → List String → Except String String
  runGitRevList : String → Int → List String → Except String String
  runGitDescribe : String → Int → List String → Except String String

/-- External collaborators of one resolver call: the remote page results in
fetch order, the git executor, and the storage-failure oracle for
`tx.Create`. -/
structure Env where
  fetchPages : List (Except String (List RefNode))
  gd : GitDescExecutor
  createErr : GitTag → Option String

/-- Result of an operation: the value or error, the store it left behind,
and the I/O events it performed. -/
structure Out (α : Type) where
  result : Except ResolverError α
  store : Store
  events : List Event
  deriving Repr

/-! ## Input validation (resolver.go `IsSHA`) -/

/-- Go `unicode.IsSpace` (the code points with the White_Space property). -/
def goIsSpace (c : Char) : Bool :=
  c.toNat = 9 ∨ c.toNat = 10 ∨ c.toNat = 11 ∨ c.toNat = 12 ∨ c.toNat = 13 ∨
  c.toNat = 32 ∨ c.toNat = 0x85 ∨ c.toNat = 0xA0 ∨ c.toNat = 0x1680 ∨
  (0x2000 ≤ c.toNat ∧ c.toNat ≤ 0x200A) ∨
  c.toNat = 0x2028 ∨ c.toNat = 0x2029 ∨ c.toNat = 0x202F ∨ c.toNat = 0x205F ∨
  c.toNat = 0x3000

/-- Go `strings.TrimSpace` on the character list of a string. -/
def goTrimSpace (s : List Char) : List Char :=
  ((s.dropWhile goIsSpace).reverse.dropWhile goIsSpace).reverse

/-- One character of the class `[0-9a-f]` (code points 48–57 and 97–102). -/
def isHexLower (c : Char) : Bool :=
  (48 ≤ c.toNat ∧ c.toNat ≤ 57) ∨ (97 ≤ c.toNat ∧ c.toNat ≤ 102)

/-- resolver.go `IsSHA`: trim whitespace, then match `^[0-9a-f]{40}$`. -/
def IsSHA (s : String) : Bool :=
  let t := goTrimSpace s.data
  t.length = 40 ∧ t.all isHexLower

/-- The shape the spec's invariant asks of a cached hash: exactly 40
lowercase hex characters, with no trimming. -/
def isStrictSha40 (s : String) : Bool :=
  s.data.length = 40 ∧ s.data.all isHexLower

/-! ## Cache store queries -/

/-- db.go `whereNotExpired` (`? <= expired_at`) applied at time `now`. -/
def freshAt (now : Int) (r : GitTag) : Bool :=
  now ≤ r.expiredAt

/-- The tag lookup issued by `ResolveFromTagContext`:
`Where(&GitTag{RepoID: repoID, Tag: tag}).Where("? <= expired_at", now).First`.
GORM drops zero-valued struct fields; `First` returns the first row in
primary-key order. -/
def lookupByTag (repoID tag : String) (now : Int) (store : Store) : Option GitTag :=
  store.find? fun r =>
    (repoID = "" ∨ r.repoID = repoID) ∧ (tag = "" ∨ r.tag = tag) ∧ now ≤ r.expiredAt

/-- The hash lookup issued by `ResolveFromHashContext`:
`Where(&GitTag{RepoID, TagHash}).Or(&GitTag{RepoID, CommitHash}).Where("? <= expired_at", now).Find`.
GORM (v1.25.x) appends the three conditions flat and emits
`repo_id = ? AND tag_hash = ? OR (repo_id = ? AND commit_hash = ?) AND ? <= expired_at`;
since SQL `AND` binds tighter than `OR`, the freshness filter applies only
to the commit-hash operand of the disjunction. -/
def lookupByHash (repoID hash : String) (now : Int) (store : Store) : List GitTag :=
  store.filter fun r =>
    ((repoID = "" ∨ r.repoID = repoID) ∧ (hash = "" ∨ r.tagHash = hash)) ∨
    (((repoID = "" ∨ r.repoID = repoID) ∧ (hash = "" ∨ r.commitHash = hash)) ∧
      now ≤ r.expiredAt)

/-- db.go `whereExpired` (`expired_at < ?`): the prune deletes the rows
below the threshold, i.e. keeps the rows with `threshold ≤ expired_at`. -/
def pruneStore (threshold : Int) (store : Store) : Store :=
  store.filter fun r => ¬ r.expiredAt < threshold

/-- resolver.go `PruneCache`: `nil` threshold defaults to the current time;
one delete inside a transaction. -/
def PruneCache (threshold : Option Int) (now : Int) (store : Store) : Out Unit :=
  ⟨.ok (), pruneStore (threshold.getD now) store, [.cachePrune]⟩

/-! ## Upsert (the `Updates`-then-`Create` pattern) -/

/-- Match of the upsert's where struct
`&GitTag{RepoID, Tag, CommitHash, TagHash}` against a row; zero-valued
(empty) fields are dropped by GORM. -/
def upsertWhereMatch (v r : GitTag) : Bool :=
  (v.repoID = "" ∨ r.repoID = v.repoID) ∧ (v.tag = "" ∨ r.tag = v.tag) ∧
  (v.commitHash = "" ∨ r.commitHash = v.commitHash) ∧
  (v.tagHash = "" ∨ r.tagHash = v.tagHash)

/-- `Updates(&GitTag{...})`: assign the non-zero fields of `v` to `r`. -/
def applyUpdates (v r : GitTag) : GitTag :=
  { repoID := if v.repoID = "" then r.repoID else v.repoID
    tag := if v.tag = "" then r.tag else v.tag
    baseTag := if v.baseTag = "" then r.baseTag else v.baseTag
    commitHash := if v.commitHash = "" then r.commitHash else v.commitHash
    tagHash := if v.tagHash = "" then r.tagHash else v.tagHash
    expiredAt := if v.expiredAt = 0 then r.expiredAt else v.expiredAt }

/-- The write pattern shared by `updateCacheDB` and both fallback paths:
update the rows matching the four-field where struct; if no row was
affected, create the row (the only point whose error the code checks). -/
def upsertE (createErr : GitTag → Option String) (v : GitTag) (store : Store) :
    Except ResolverError Store :=
  if (store.filter (upsertWhereMatch v)).isEmpty then
    match createErr v with
    | some msg => .error (.storage msg)
    | none => .ok (store ++ [v])
  else
    .ok (store.map fun r => if upsertWhereMatch v r then applyUpdates v r else r)

/-! ## TTL policy (cache.go) -/

/-- cache.go `NewCacheTTL`; Go `time.Duration` division truncates toward
zero (`Int.tdiv`). -/
def NewCacheTTL (gitTagTTL : Int) : CacheTTL :=
  { queryTTL := Int.tdiv gitTagTTL 2
    gitFileTTL := gitTagTTL * 30
    gitAliasTagTTL := Int.tdiv gitTagTTL 8
    gitTagTTL := gitTagTTL }

/-- cache.go `ParseCacheTTL`; the `time.ParseDuration` call is external and
enters as its result. -/
def ParseCacheTTL (parsed : Except String Int) : Except ResolverError CacheTTL :=
  match parsed with
  | .error e => .error (.invalidInput e)
  | .ok d => .ok (NewCacheTTL d)

/-! ## Association-list helpers (Go map semantics on a fixed iteration
order: the model keeps first-insertion order and overwrites in place) -/

/-- Go map read `m[k]`. -/
def lookupA {α : Type} : List (String × α) → String → Option α
  | [], _ => none
  | p :: rest, k => if p.1 = k then some p.2 else lookupA rest k

/-- Go map write `m[k] = v`: overwrite in place or append. -/
def setA {α : Type} : List (String × α) → String → α → List (String × α)
  | [], k, v => [(k, v)]
  | p :: rest, k, v => if p.1 = k then (k, v) :: rest else p :: setA rest k v

/-- Read of the `hashToTag` map (keyed by `Hash`). -/
def lookupH : List (Hash × String) → Hash → Option String
  | [], _ => none
  | p :: rest, h => if p.1 = h then some p.2 else lookupH rest h

/-- Write to the `hashToTag` map. -/
def setH : List (Hash × String) → Hash → String → List (Hash × String)
  | [], h, t => [(h, t)]
  | p :: rest, h, t => if p.1 = h then (h, t) :: rest else p :: setH rest h t

/-! ## FetchTagAndOID (resolver.go) -/

/-- Go `strings.Split(s, "/")` on the character list of `s`. -/
def splitOnSlash : List Char → List (List Char)
  | [] => [[]]
  | c :: rest =>
    if c = '/' then [] :: splitOnSlash rest
    else
      match splitOnSlash rest with
      | [] => [[c]]
      | seg :: segs => (c :: seg) :: segs

/-- resolver.go `extractShaFromCommitResourcePath`: last `/`-segment of the
path, validated with `IsSHA` and returned untrimmed. -/
def extractShaFromCommitResourcePath (p : String) : Except ResolverError String :=
  let sha : String := ⟨(splitOnSlash p.data).getLastD []⟩
  if IsSHA sha then .ok sha else .error (.invalidInput ("invalid SHA: " ++ sha))

/-- Fold one page of nodes into the tag→hash map (`tagHash[node.Name] = ...`). -/
def fetchNodes (acc : List (String × Hash)) :
    List RefNode → Except ResolverError (List (String × Hash))
  | [] => .ok acc
  | node :: rest =>
    match extractShaFromCommitResourcePath node.commitResourcePath with
    | .error e => .error e
    | .ok sha => fetchNodes (setA acc node.name ⟨sha, node.oid⟩) rest

/-- Page loop of `FetchTagAndOID`: consume pages until exhausted or a
transport/extraction error; also count the page queries performed. -/
def fetchPagesLoop (acc : List (String × Hash)) :
    List (Except String (List RefNode)) →
      Except ResolverError (List (String × Hash)) × Nat
  | [] => (.ok acc, 0)
  | page :: rest =>
    match page with
    | .error msg => (.error (.transport msg), 1)
    | .ok nodes =>
      match fetchNodes acc nodes with
      | .error e => (.error e, 1)
      | .ok acc2 =>
        let r := fetchPagesLoop acc2 rest
        (r.1, r.2 + 1)

/-- resolver.go `FetchTagAndOID`: the complete tag→{commitHash, tagHash}
table, or the first error; paired with the number of pages queried. -/
def FetchTagAndOID (pages : List (Except String (List RefNode))) :
    Except ResolverError (List (String × Hash)) × Nat :=
  fetchPagesLoop [] pages

/-! ## updateCacheDB (resolver.go) -/

/-- One step of the alias-partition loop of `updateCacheDB`. -/
def ttlStep (ttl : CacheTTL) (now : Int)
    (acc : List (Hash × String) × List (String × Int)) (p : String × Hash) :
    List (Hash × String) × List (String × Int) :=
  match lookupH acc.1 p.2 with
  | some existTag =>
    let short := now + ttl.gitAliasTagTTL
    (acc.1, setA (setA acc.2 p.1 short) existTag short)
  | none =>
    (setH acc.1 p.2 p.1, setA acc.2 p.1 (now + ttl.gitTagTTL))

/-- The partition pass of `updateCacheDB`: build `hashToTag` and `ttlMap`
over the fetched table. -/
def ttlPartition (ttl : CacheTTL) (now : Int) (m : List (String × Hash)) :
    List (Hash × String) × List (String × Int) :=
  m.foldl (ttlStep ttl now) ([], [])

/-- The write transaction of `updateCacheDB`: upsert every fetched tag with
its `ttlMap` expiry (erroring if the tag has none); also count the upserts
attempted. -/
def updateTx (createErr : GitTag → Option String) (repoID : String)
    (ttlMap : List (String × Int)) :
    List (String × Hash) → Store → Except ResolverError Store × Nat
  | [], s => (.ok s, 0)
  | (tag, hash) :: rest, s =>
    match lookupA ttlMap tag with
    | none => (.error (.ttlNotFound tag), 0)
    | some expiredAt =>
      match upsertE createErr
          ⟨repoID, tag, tag, hash.commitHash, hash.tagHash, expiredAt⟩ s with
      | .error e => (.error e, 1)
      | .ok s2 =>
        let r := updateTx createErr repoID ttlMap rest s2
        (r.1, r.2 + 1)

/-- resolver.go `updateCacheDB`: fetch, partition, transactional upserts
(rolled back wholesale on error), then prune at `now`. -/
def updateCacheDB (ttl : CacheTTL) (env : Env) (repoID : String) (now : Int)
    (store : Store) : Out Unit :=
  let fr := FetchTagAndOID env.fetchPages
  let fev := List.replicate fr.2 Event.fetchPage
  match fr.1 with
  | .error e => ⟨.error e, store, fev⟩
  | .ok taghashMap =>
    let ttlMap := (ttlPartition ttl now taghashMap).2
    let tr := updateTx env.createErr repoID ttlMap taghashMap store
    let wev := List.replicate tr.2 Event.cacheWrite
    match tr.1 with
    | .error e => ⟨.error e, store, fev ++ wev⟩
    | .ok s2 => ⟨.ok (), pruneStore now s2, fev ++ wev ++ [.cachePrune]⟩

/-! ## The point resolvers (resolver.go) -/

/-- resolver.go `resolveTagHashFromGitObj`: `git rev-parse <tag>` through
the executor with the `GitFileTTL` clone cache. -/
def resolveTagHashFromGitObj (ttl : CacheTTL) (gd : GitDescExecutor)
    (repoID tag : String) : Except String String :=
  gd.runGitRevParse repoID ttl.gitFileTTL [tag]

/-- resolver.go `resolveCommitHashFromGitObj`: `git rev-list -n 1 <tag>`. -/
def resolveCommitHashFromGitObj (ttl : CacheTTL) (gd : GitDescExecutor)
    (repoID tag : String) : Except String String :=
  gd.runGitRevList repoID ttl.gitFileTTL ["-n", "1", tag]

/-- resolver.go `resolveBaseTagFromGitObj`:
`git describe --tags --abbrev=0 <hash>`. -/
def resolveBaseTagFromGitObj (ttl : CacheTTL) (gd : GitDescExecutor)
    (repoID hash : String) : Except String String :=
  gd.runGitDescribe repoID ttl.gitFileTTL ["--tags", "--abbrev=0", hash]

/-- resolver.go `ResolveFromTagContext`: validate, cached read, refresh and
re-read on miss, then the local-git fallback upserted with `GitFileTTL`. -/
def ResolveFromTagContext (ttl : CacheTTL) (env : Env) (repoID tag : String)
    (now : Int) (store : Store) : Out GitTag :=
  if tag = "" then ⟨.error (.invalidInput "require a tag"), store, []⟩
  else
    match lookupByTag repoID tag now store with
    | some e => ⟨.ok e, store, [.cacheRead]⟩
    | none =>
      let u := updateCacheDB ttl env repoID now store
      match u.result with
      | .error err => ⟨.error err, store, .cacheRead :: u.events⟩
      | .ok _ =>
        match lookupByTag repoID tag now u.store with
        | some e => ⟨.ok e, u.store, .cacheRead :: u.events ++ [.cacheRead]⟩
        | none =>
          let ev := .cacheRead :: u.events ++ [Event.cacheRead]
          match resolveTagHashFromGitObj ttl env.gd repoID tag with
          | .error m => ⟨.error (.introspection m), u.store, ev ++ [.gitRevParse]⟩
          | .ok tagHash =>
            match resolveBaseTagFromGitObj ttl env.gd repoID tagHash with
            | .error m =>
              ⟨.error (.introspection m), u.store, ev ++ [.gitRevParse, .gitDescribe]⟩
            | .ok baseTag =>
              match resolveCommitHashFromGitObj ttl env.gd repoID tag with
              | .error m =>
                ⟨.error (.introspection m), u.store,
                  ev ++ [.gitRevParse, .gitDescribe, .gitRevList]⟩
              | .ok commitHash =>
                let v : GitTag :=
                  ⟨repoID, tag, baseTag, commitHash, tagHash, now + ttl.gitFileTTL⟩
                match upsertE env.createErr v u.store with
                | .error e =>
                  ⟨.error e, u.store,
                    ev ++ [.gitRevParse, .gitDescribe, .gitRevList, .cacheWrite]⟩
                | .ok s3 =>
                  ⟨.ok v, s3,
                    ev ++ [.gitRevParse, .gitDescribe, .gitRevList, .cacheWrite]⟩

/-- resolver.go `ResolveFromHashContext`: validate with `IsSHA`, cached
read, refresh and re-read on miss, then the `git describe --tags` fallback
upserted with `GitFileTTL` and returned as a single-element list. -/
def ResolveFromHashContext (ttl : CacheTTL) (env : Env) (repoID hash : String)
    (now : Int) (store : Store) : Out (List GitTag) :=
  if ¬ IsSHA hash then ⟨.error (.invalidInput ("invalid SHA: " ++ hash)), store, []⟩
  else
    let hits := lookupByHash repoID hash now store
    if ¬ hits.isEmpty then ⟨.ok hits, store, [.cacheRead]⟩
    else
      let u := updateCacheDB ttl env repoID now store
      match u.result with
      | .error err => ⟨.error err, store, .cacheRead :: u.events⟩
      | .ok _ =>
        let hits2 := lookupByHash repoID hash now u.store
        if ¬ hits2.isEmpty then ⟨.ok hits2, u.store, .cacheRead :: u.events ++ [.cacheRead]⟩
        else
          let ev := .cacheRead :: u.events ++ [Event.cacheRead]
          match env.gd.runGitDescribe repoID ttl.gitFileTTL ["--tags", hash] with
          | .error m => ⟨.error (.introspection m), u.store, ev ++ [.gitDescribe]⟩
          | .ok tag =>
            match resolveBaseTagFromGitObj ttl env.gd repoID hash with
            | .error m =>
              ⟨.error (.introspection m), u.store, ev ++ [.gitDescribe, .gitDescribe]⟩
            | .ok baseTag =>
              match resolveTagHashFromGitObj ttl env.gd repoID tag with
              | .error m =>
                ⟨.error (.introspection m), u.store,
                  ev ++ [.gitDescribe, .gitDescribe, .gitRevParse]⟩
              | .ok tagHash =>
                match resolveCommitHashFromGitObj ttl env.gd repoID tag with
                | .error m =>
                  ⟨.error (.introspection m), u.store,
                    ev ++ [.gitDescribe, .gitDescribe, .gitRevParse, .gitRevList]⟩
                | .ok commitHash =>
                  let v : GitTag :=
                    ⟨repoID, tag, baseTag, commitHash, tagHash, now + ttl.gitFileTTL⟩
                  match upsertE env.createErr v u.store with
                  | .error e =>
                    ⟨.error e, u.store,
                      ev ++ [.gitDescribe, .gitDescribe, .gitRevParse, .gitRevList,
                        .cacheWrite]⟩
                  | .ok s3 =>
                    ⟨.ok [v], s3,
                      ev ++ [.gitDescribe, .gitDescribe, .gitRevParse, .gitRevList,
                        .cacheWrite]⟩

/-! ## Auxiliary predicates used by statements -/

/-- Whether an outcome ended in the `failed to get a TTL for the tag`
error of the write transaction. -/
def ttlErrorOut (o : Out Unit) : Bool :=
  match o.result with
  | .error (.ttlNotFound _) => true
  | _ => false

/-- Whether the `(commitHash, tagHash)` pair of `p` is shared with at least
one other tag of the fetched table `m`. -/
def pairShared (m : List (String × Hash)) (p : String × Hash) : Bool :=
  m.any fun q => q.2 = p.2 ∧ q.1 ≠ p.1

/-- The first tag of the list carrying hash pair `h` (the tag `hashToTag`
remembers as the canonical owner of the pair). -/
def firstTagOf (pre : List (String × Hash)) (h : Hash) : Option String :=
  (pre.find? fun q => q.2 = h).map fun q => q.1

/-- How many tags of the list carry hash pair `h`. -/
def countHash (pre : List (String × Hash)) (h : Hash) : Nat :=
  (pre.filter fun q => q.2 = h).length

/-! ## Concrete fixtures for counterexamples and witnesses -/

/-- A 40-character lowercase hex string. -/
def sha40a : String := "aaaaaaaaaaaaaaaaaaaaaaaaaaaaaaaaaaaaaaaa"

/-- A whitespace-padded hash: 41 characters, one of them not hex. -/
def paddedSha : String := sha40a ++ "\n"

/-- A git executor whose every operation fails. -/
def failGd : GitDescExecutor :=
  ⟨fun _ _ _ => .error "no git", fun _ _ _ => .error "no git",
    fun _ _ _ => .error "no git"⟩

/-- A git executor that answers every operation with a string derived from
its arguments (so provenance is visible in the answer). -/
def echoGd : GitDescExecutor :=
  { runGitRevParse := fun _ _ args =>
      .ok (args.foldl (fun acc a => acc ++ "." ++ a) "rp")
    runGitRevList := fun _ _ args =>
      .ok (args.foldl (fun acc a => acc ++ "." ++ a) "rl")
    runGitDescribe := fun _ _ args =>
      .ok (args.foldl (fun acc a => acc ++ "." ++ a) "d") }

/-- The always-successful storage oracle. -/
def noCreateErr : GitTag → Option String := fun _ => none

/-- Environment with no remote pages and a failing git executor. -/
def failEnv : Env := ⟨[], failGd, noCreateErr⟩

/-- Environment with no remote pages and the echoing git executor. -/
def echoEnv : Env := ⟨[], echoGd, noCreateErr⟩

/-- Environment whose first remote page fails. -/
def badFetchEnv : Env := ⟨[.error "boom"], failGd, noCreateErr⟩

/-- Environment whose single remote page lists two tags sharing one
`(commitHash, tagHash)` pair. -/
def aliasEnv : Env :=
  ⟨[.ok [⟨"v1", "t1", "x/" ++ sha40a⟩, ⟨"v1.0.0", "t1", "x/" ++ sha40a⟩]],
    failGd, noCreateErr⟩

/-- An expired row whose `tagHash` is `sha40a`. -/
def expiredRow : GitTag := ⟨"o/r", "v1", "v1", "c", sha40a, 5⟩

/-- A fresh row whose `tagHash` is the whitespace-padded hash. -/
def paddedRow : GitTag := ⟨"o/r", "v1", "v1", "c", paddedSha, 100⟩

/-! # Theorems -/

/-! ## C8 — TTL derivation -/

/-- C8: for every base duration, `NewCacheTTL` derives
`gitFileTTL = gitTagTTL * 30`, `gitAliasTagTTL = gitTagTTL / 8` and
`queryTTL = gitTagTTL / 2` (Go's truncated division), and `ParseCacheTTL`
applies exactly this derivation to any string that parses as a duration. -/
theorem c8_ttl_derivation :
    ∀ d : Int,
      (NewCacheTTL d).gitFileTTL = d * 30 ∧
      (NewCacheTTL d).gitAliasTagTTL = Int.tdiv d 8 ∧
      (NewCacheTTL d).queryTTL = Int.tdiv d 2 ∧
      (NewCacheTTL d).gitTagTTL = d ∧
      ParseCacheTTL (.ok d) = .ok (NewCacheTTL d) :=
  fun _ => ⟨rfl, rfl, rfl, rfl, rfl⟩

/-! ## C4 — prune removes exactly the expired rows -/

/-- C4: `PruneCache` with threshold `t` keeps exactly the rows with
`t ≤ expiredAt` (removing exactly those with `expiredAt < t`), and pruning
twice with the same threshold equals pruning once. -/
theorem c4_prune_exact_and_idempotent :
    ∀ (t now now2 : Int) (s : Store),
      (∀ r : GitTag,
        r ∈ (PruneCache (some t) now s).store ↔ r ∈ s ∧ t ≤ r.expiredAt) ∧
      (PruneCache (some t) now2 ((PruneCache (some t) now s).store)).store =
        (PruneCache (some t) now s).store := by
  intro t now now2 s
  constructor
  · intro r
    simp [PruneCache, pruneStore, List.mem_filter, not_lt]
  · simp [PruneCache, pruneStore, List.filter_filter]

/-! ## C3 — input validation -/

theorem hexLower_not_space {c : Char} (h : isHexLower c = true) :
    goIsSpace c = false := by
  simp only [isHexLower, decide_eq_true_eq] at h
  simp only [goIsSpace, decide_eq_false_iff_not]
  omega

theorem dropWhile_goIsSpace_of_all_hex {l : List Char}
    (h : l.all isHexLower = true) : l.dropWhile goIsSpace = l := by
  cases l with
  | nil => rfl
  | cons c cs =>
    have hc : isHexLower c = true := by
      simp only [List.all_cons, Bool.and_eq_true] at h
      exact h.1
    simp [List.dropWhile_cons, hexLower_not_space hc]

theorem goTrimSpace_of_all_hex {l : List Char}
    (h : l.all isHexLower = true) : goTrimSpace l = l := by
  unfold goTrimSpace
  rw [dropWhile_goIsSpace_of_all_hex h,
    dropWhile_goIsSpace_of_all_hex (by simpa using h), List.reverse_reverse]

/-- C3 counterexample: a 41-character string containing a non-hex character
(`sha40a` followed by a newline) is accepted by `IsSHA` — so
`ResolveFromHashContext` does not reject it, contrary to the claim: here it
even performs a cache read and returns a hit. -/
theorem c3_trimmed_hash_accepted :
    isStrictSha40 paddedSha = false ∧ paddedSha.data.length = 41 ∧
    IsSHA paddedSha = true ∧
    (ResolveFromHashContext (NewCacheTTL 800) failEnv "o/r" paddedSha 10
      [paddedRow]).result = .ok [paddedRow] ∧
    (ResolveFromHashContext (NewCacheTTL 800) failEnv "o/r" paddedSha 10
      [paddedRow]).events = [.cacheRead] :=
  ⟨by decide, by decide, by decide, rfl, rfl⟩

/-- C3 (amended): validation happens before any I/O.  An empty tag fails
with `InvalidInput`, a hash failing `IsSHA` fails with `InvalidInput`, and
in both cases the store is untouched and no event happens.  `IsSHA` accepts
exactly the strings whose whitespace-trimmed form is 40 lowercase hex
characters; in particular every 40-character lowercase hex string is
accepted. -/
theorem c3_validation_before_io :
    ∀ (ttl : CacheTTL) (env : Env) (repoID tag hash : String) (now : Int)
      (store : Store),
      (tag = "" →
        ResolveFromTagContext ttl env repoID tag now store =
          ⟨.error (.invalidInput "require a tag"), store, []⟩) ∧
      (IsSHA hash = false →
        ResolveFromHashContext ttl env repoID hash now store =
          ⟨.error (.invalidInput ("invalid SHA: " ++ hash)), store, []⟩) ∧
      (IsSHA hash = true ↔
        (goTrimSpace hash.data).length = 40 ∧
          (goTrimSpace hash.data).all isHexLower = true) ∧
      (isStrictSha40 hash = true → IsSHA hash = true) := by
  intro ttl env repoID tag hash now store
  refine ⟨fun ht => ?_, fun hh => ?_, ?_, fun hs => ?_⟩
  · simp [ResolveFromTagContext, ht]
  · simp [ResolveFromHashContext, hh]
  · simp [IsSHA]
  · simp only [isStrictSha40, decide_eq_true_eq, Bool.and_eq_true] at hs
    simp [IsSHA, goTrimSpace_of_all_hex hs.2, hs.1, hs.2]

/-- C3 witness: the amended theorem applied at concrete inputs. -/
theorem c3_witness :
    ResolveFromTagContext (NewCacheTTL 800) failEnv "o/r" "" 0 [] =
      ⟨.error (.invalidInput "require a tag"), [], []⟩ ∧
    ResolveFromHashContext (NewCacheTTL 800) failEnv "o/r" "xyz" 0 [] =
      ⟨.error (.invalidInput ("invalid SHA: " ++ "xyz")), [], []⟩ ∧
    IsSHA sha40a = true :=
  ⟨(c3_validation_before_io (NewCacheTTL 800) failEnv "o/r" "" "xyz" 0 []).1 rfl,
    (c3_validation_before_io (NewCacheTTL 800) failEnv "o/r" "" "xyz" 0 []).2.1
      (by decide),
    (c3_validation_before_io (NewCacheTTL 800) failEnv "o/r" "" sha40a 0 []).2.2.2
      (by decide)⟩

/-! ## C1 — the freshness filter misses the tagHash branch -/

/-- C1: the GORM condition chain
`Where(tagHash).Or(commitHash).Where("? <= expired_at")` attaches the
freshness filter only to the commit-hash operand, so an **expired** row
whose `tagHash` matches is returned by the cache lookup and by
`ResolveFromHashContext`, contrary to the claim: here `expiredRow` expired
at 5, the lookup runs at 10, and the row is still returned. -/
theorem c1_expired_taghash_row_returned :
    expiredRow.expiredAt < 10 ∧ IsSHA sha40a = true ∧
    lookupByHash "o/r" sha40a 10 [expiredRow] = [expiredRow] ∧
    (ResolveFromHashContext (NewCacheTTL 800) failEnv "o/r" sha40a 10
      [expiredRow]).result = .ok [expiredRow] :=
  ⟨by decide, by decide, by decide, rfl⟩

/-! ## Association-list and upsert lemmas -/

theorem mem_setA {α : Type} {m : List (String × α)} {k : String} {v : α}
    {p : String × α} : p ∈ setA m k v → p ∈ m ∨ p = (k, v) := by
  induction m with
  | nil =>
    intro h
    simpa [setA] using h
  | cons q rest ih =>
    intro h
    by_cases hq : q.1 = k
    · rw [setA, if_pos hq] at h
      rcases List.mem_cons.mp h with h | h
      · exact Or.inr h
      · exact Or.inl (List.mem_cons_of_mem _ h)
    · rw [setA, if_neg hq] at h
      rcases List.mem_cons.mp h with h | h
      · rw [h]
        exact Or.inl (List.mem_cons_self _ _)
      · rcases ih h with h2 | h2
        · exact Or.inl (List.mem_cons_of_mem _ h2)
        · exact Or.inr h2

theorem extractSha_isSHA {p s : String}
    (h : extractShaFromCommitResourcePath p = .ok s) : IsSHA s = true := by
  by_cases hif : IsSHA ⟨(splitOnSlash p.data).getLastD []⟩ = true
  · simp only [extractShaFromCommitResourcePath, hif, if_true] at h
    cases h
    exact hif
  · simp only [extractShaFromCommitResourcePath, hif, if_false] at h
    simp at h

theorem IsSHA_ne_empty {s : String} (h : IsSHA s = true) : s ≠ "" := by
  intro he
  subst he
  exact absurd h (by decide)

theorem applyUpdates_commitHash_of_ne {v r : GitTag} (h : v.commitHash ≠ "") :
    (applyUpdates v r).commitHash = v.commitHash := by
  simp [applyUpdates, h]

theorem mem_of_upsertE {ce : GitTag → Option String} {v : GitTag}
    {s s2 : Store} {r : GitTag} (h : upsertE ce v s = .ok s2) (hr : r ∈ s2) :
    r ∈ s ∨ r = v ∨ ∃ r0 ∈ s, r = applyUpdates v r0 := by
  unfold upsertE at h
  split at h
  · cases hce : ce v with
    | some msg =>
      rw [hce] at h
      cases h
    | none =>
      rw [hce] at h
      cases h
      rcases List.mem_append.mp hr with h1 | h2
      · exact Or.inl h1
      · exact Or.inr (Or.inl (by simpa using h2))
  · cases h
    rcases List.mem_map.mp hr with ⟨r0, hr0, heq⟩
    by_cases hm : upsertWhereMatch v r0 = true
    · exact Or.inr (Or.inr ⟨r0, hr0, by rw [← heq]; simp [hm]⟩)
    · left
      rw [← heq]
      simpa [hm] using hr0

/-! ## Fetched hashes have validated commit hashes -/

theorem fetchNodes_commit_sha {acc m : List (String × Hash)}
    {nodes : List RefNode}
    (hacc : ∀ p ∈ acc, IsSHA p.2.commitHash = true)
    (h : fetchNodes acc nodes = .ok m) :
    ∀ p ∈ m, IsSHA p.2.commitHash = true := by
  induction nodes generalizing acc with
  | nil =>
    cases h
    exact hacc
  | cons node rest ih =>
    unfold fetchNodes at h
    cases hx : extractShaFromCommitResourcePath node.commitResourcePath with
    | error e =>
      rw [hx] at h
      cases h
    | ok sha =>
      rw [hx] at h
      refine ih ?_ h
      intro p hp
      rcases mem_setA hp with hin | heq
      · exact hacc p hin
      · rw [heq]
        exact extractSha_isSHA hx

theorem fetchPagesLoop_commit_sha {acc m : List (String × Hash)}
    {pages : List (Except String (List RefNode))}
    (hacc : ∀ p ∈ acc, IsSHA p.2.commitHash = true)
    (h : (fetchPagesLoop acc pages).1 = .ok m) :
    ∀ p ∈ m, IsSHA p.2.commitHash = true := by
  induction pages generalizing acc with
  | nil =>
    cases h
    exact hacc
  | cons page rest ih =>
    unfold fetchPagesLoop at h
    cases page with
    | error msg => simp at h
    | ok nodes =>
      dsimp only at h
      cases hfn : fetchNodes acc nodes with
      | error e =>
        rw [hfn] at h
        simp at h
      | ok acc2 =>
        rw [hfn] at h
        exact ih (fetchNodes_commit_sha hacc hfn) h

/-! ## Decomposition of updateCacheDB -/

theorem updateCacheDB_error_store {ttl : CacheTTL} {env : Env}
    {repoID : String} {now : Int} {store : Store} {e : ResolverError}
    (h : (updateCacheDB ttl env repoID now store).result = .error e) :
    (updateCacheDB ttl env repoID now store).store = store := by
  cases h1 : (FetchTagAndOID env.fetchPages).1 with
  | error e2 => simp [updateCacheDB, h1]
  | ok m =>
    cases h2 : (updateTx env.createErr repoID
        (ttlPartition ttl now m).2 m store).1 with
    | error e2 => simp [updateCacheDB, h1, h2]
    | ok s2 =>
      have hx := h
      simp [updateCacheDB, h1, h2] at hx

theorem updateCacheDB_ok_decomp {ttl : CacheTTL} {env : Env}
    {repoID : String} {now : Int} {store : Store}
    (h : (updateCacheDB ttl env repoID now store).result = .ok ()) :
    ∃ m s2, (FetchTagAndOID env.fetchPages).1 = .ok m ∧
      (updateTx env.createErr repoID (ttlPartition ttl now m).2 m store).1 =
        .ok s2 ∧
      (updateCacheDB ttl env repoID now store).store = pruneStore now s2 := by
  cases h1 : (FetchTagAndOID env.fetchPages).1 with
  | error e2 =>
    have hx := h
    simp [updateCacheDB, h1] at hx
  | ok m =>
    cases h2 : (updateTx env.createErr repoID
        (ttlPartition ttl now m).2 m store).1 with
    | error e2 =>
      have hx := h
      simp [updateCacheDB, h1, h2] at hx
    | ok s2 => exact ⟨m, s2, rfl, h2, by simp [updateCacheDB, h1, h2]⟩

/-! ## C9 — which cached hashes are validated -/

theorem updateTx_commit_sha {ce : GitTag → Option String} {repoID : String}
    {ttlMap : List (String × Int)} {l : List (String × Hash)}
    {s s2 s0 : Store}
    (hl : ∀ p ∈ l, IsSHA p.2.commitHash = true)
    (hs : ∀ r ∈ s, r ∈ s0 ∨ IsSHA r.commitHash = true)
    (h : (updateTx ce repoID ttlMap l s).1 = .ok s2) :
    ∀ r ∈ s2, r ∈ s0 ∨ IsSHA r.commitHash = true := by
  induction l generalizing s with
  | nil =>
    cases h
    exact hs
  | cons p rest ih =>
    obtain ⟨t0, h0⟩ := p
    unfold updateTx at h
    cases hlk : lookupA ttlMap t0 with
    | none =>
      rw [hlk] at h
      simp at h
    | some exp =>
      rw [hlk] at h
      dsimp only at h
      cases hup : upsertE ce ⟨repoID, t0, t0, h0.commitHash, h0.tagHash, exp⟩ s with
      | error e =>
        rw [hup] at h
        simp at h
      | ok s1 =>
        rw [hup] at h
        dsimp only at h
        have hsha : IsSHA h0.commitHash = true := hl (t0, h0) (List.mem_cons_self _ _)
        refine ih (fun q hq => hl q (List.mem_cons_of_mem _ hq)) ?_ h
        intro r hr
        rcases mem_of_upsertE hup hr with h1 | h2 | ⟨r0, _, heq⟩
        · exact hs r h1
        · right
          rw [h2]
          exact hsha
        · right
          rw [heq, applyUpdates_commitHash_of_ne (IsSHA_ne_empty hsha)]
          exact hsha

/-- C9 counterexample: the bulk refresh caches a `tagHash` exactly as the
remote supplied it — here the non-hex string `zzz` ends up in the store,
contrary to the claim that a value that is not 40 lowercase hex characters
is never cached. -/
theorem c9_unvalidated_taghash_cached :
    (updateCacheDB (NewCacheTTL 800)
        ⟨[.ok [⟨"v1", "zzz", "x/" ++ sha40a⟩]], failGd, noCreateErr⟩
        "o/r" 100 []).store =
      [⟨"o/r", "v1", "v1", sha40a, "zzz", 900⟩] ∧
    isStrictSha40 "zzz" = false :=
  ⟨by decide, by decide⟩

/-- C9 (amended): every entry the bulk refresh writes has a `commitHash`
accepted by `IsSHA` (extracted from the commit resource path and
validated), but its `tagHash` is the remote-supplied Oid, cached without
validation; the fallback paths cache git-command outputs unvalidated. -/
theorem c9_commit_hash_validated :
    ∀ (ttl : CacheTTL) (env : Env) (repoID : String) (now : Int)
      (store : Store),
      ∀ r ∈ (updateCacheDB ttl env repoID now store).store,
        r ∈ store ∨ IsSHA r.commitHash = true := by
  intro ttl env repoID now store r hr
  cases hres : (updateCacheDB ttl env repoID now store).result with
  | error e =>
    rw [updateCacheDB_error_store hres] at hr
    exact Or.inl hr
  | ok u =>
    obtain ⟨m, s2, hf, htx, hst⟩ := updateCacheDB_ok_decomp hres
    rw [hst] at hr
    have hr2 : r ∈ s2 := List.mem_of_mem_filter hr
    exact updateTx_commit_sha
      (fetchPagesLoop_commit_sha (by simp) hf)
      (fun q hq => Or.inl hq) htx r hr2

/-- C9 witness: the amended theorem applied to a concrete refresh. -/
theorem c9_witness :
    expiredRow ∈ ([expiredRow] : Store) ∨ IsSHA expiredRow.commitHash = true :=
  c9_commit_hash_validated (NewCacheTTL 800) failEnv "o/r" 0 [expiredRow]
    expiredRow (by decide)

/-! ## Lookup/update lemmas for the Go-map model -/

theorem lookupA_setA_self {α : Type} (m : List (String × α)) (k : String)
    (v : α) : lookupA (setA m k v) k = some v := by
  induction m with
  | nil => simp [setA, lookupA]
  | cons q rest ih =>
    by_cases hq : q.1 = k
    · simp [setA, hq, lookupA]
    · simp [setA, hq, lookupA, ih]

theorem lookupA_setA_ne {α : Type} {k2 k : String} (h : k2 ≠ k)
    (m : List (String × α)) (v : α) :
    lookupA (setA m k v) k2 = lookupA m k2 := by
  have hk : ¬ k = k2 := fun hx => h hx.symm
  induction m with
  | nil => simp [setA, lookupA, hk]
  | cons q rest ih =>
    by_cases hq : q.1 = k
    · simp [setA, hq, lookupA, hk]
    · by_cases hq2 : q.1 = k2
      · simp [setA, hq, lookupA, hq2, h]
      · simp [setA, hq, lookupA, hq2, ih]

theorem isSome_lookupA_setA_self {α : Type} (m : List (String × α))
    (k : String) (v : α) : (lookupA (setA m k v) k).isSome = true := by
  rw [lookupA_setA_self]
  rfl

theorem isSome_lookupA_setA_mono {α : Type} {m : List (String × α)}
    {k2 : String} (k : String) (v : α)
    (h : (lookupA m k2).isSome = true) :
    (lookupA (setA m k v) k2).isSome = true := by
  by_cases hk : k2 = k
  · rw [hk]
    exact isSome_lookupA_setA_self m k v
  · rwa [lookupA_setA_ne hk]

/-! ## The partition pass assigns a TTL to every fetched tag -/

theorem ttlStep_isSome_mono {ttl : CacheTTL} {now : Int}
    {acc : List (Hash × String) × List (String × Int)} {t : String}
    (p : String × Hash) (h : (lookupA acc.2 t).isSome = true) :
    (lookupA (ttlStep ttl now acc p).2 t).isSome = true := by
  unfold ttlStep
  cases lookupH acc.1 p.2 with
  | some existTag =>
    exact isSome_lookupA_setA_mono _ _ (isSome_lookupA_setA_mono _ _ h)
  | none => exact isSome_lookupA_setA_mono _ _ h

theorem ttlStep_isSome_self {ttl : CacheTTL} {now : Int}
    (acc : List (Hash × String) × List (String × Int)) (p : String × Hash) :
    (lookupA (ttlStep ttl now acc p).2 p.1).isSome = true := by
  unfold ttlStep
  cases lookupH acc.1 p.2 with
  | some existTag =>
    exact isSome_lookupA_setA_mono _ _ (isSome_lookupA_setA_self _ _ _)
  | none => exact isSome_lookupA_setA_self _ _ _

theorem foldl_ttlStep_isSome_mono {ttl : CacheTTL} {now : Int}
    {l : List (String × Hash)}
    {acc : List (Hash × String) × List (String × Int)} {t : String}
    (h : (lookupA acc.2 t).isSome = true) :
    (lookupA (List.foldl (ttlStep ttl now) acc l).2 t).isSome = true := by
  induction l generalizing acc with
  | nil => exact h
  | cons p rest ih => exact ih (ttlStep_isSome_mono p h)

theorem ttlPartition_covers {ttl : CacheTTL} {now : Int}
    {m : List (String × Hash)} :
    ∀ p ∈ m, (lookupA (ttlPartition ttl now m).2 p.1).isSome = true := by
  suffices hgen : ∀ (l : List (String × Hash)) acc, ∀ p ∈ l,
      (lookupA (List.foldl (ttlStep ttl now) acc l).2 p.1).isSome = true by
    exact hgen m ([], [])
  intro l
  induction l with
  | nil =>
    intro acc p hp
    cases hp
  | cons q rest ih =>
    intro acc p hp
    rcases List.mem_cons.mp hp with hp | hp
    · rw [hp, List.foldl_cons]
      exact foldl_ttlStep_isSome_mono (ttlStep_isSome_self acc q)
    · exact ih (ttlStep ttl now acc q) p hp

/-! ## Error shapes of the refresh pipeline -/

theorem extractSha_error_shape {p : String} {e : ResolverError}
    (h : extractShaFromCommitResourcePath p = .error e) :
    ∃ msg, e = .invalidInput msg := by
  by_cases hif : IsSHA ⟨(splitOnSlash p.data).getLastD []⟩ = true
  · simp only [extractShaFromCommitResourcePath, hif, if_true] at h
    simp at h
  · simp only [extractShaFromCommitResourcePath, hif, if_false] at h
    cases h
    exact ⟨_, rfl⟩

theorem fetchNodes_error_shape {acc : List (String × Hash)}
    {nodes : List RefNode} {e : ResolverError}
    (h : fetchNodes acc nodes = .error e) : ∃ msg, e = .invalidInput msg := by
  induction nodes generalizing acc with
  | nil => cases h
  | cons node rest ih =>
    unfold fetchNodes at h
    cases hx : extractShaFromCommitResourcePath node.commitResourcePath with
    | error e2 =>
      rw [hx] at h
      cases h
      exact extractSha_error_shape hx
    | ok sha =>
      rw [hx] at h
      exact ih h

theorem fetchPagesLoop_error_shape {acc : List (String × Hash)}
    {pages : List (Except String (List RefNode))} {e : ResolverError}
    (h : (fetchPagesLoop acc pages).1 = .error e) :
    (∃ msg, e = .transport msg) ∨ (∃ msg, e = .invalidInput msg) := by
  induction pages generalizing acc with
  | nil => cases h
  | cons page rest ih =>
    unfold fetchPagesLoop at h
    cases page with
    | error msg =>
      cases h
      exact Or.inl ⟨_, rfl⟩
    | ok nodes =>
      dsimp only at h
      cases hfn : fetchNodes acc nodes with
      | error e2 =>
        rw [hfn] at h
        cases h
        exact Or.inr (fetchNodes_error_shape hfn)
      | ok acc2 =>
        rw [hfn] at h
        exact ih h

theorem upsertE_error_shape {ce : GitTag → Option String} {v : GitTag}
    {s : Store} {e : ResolverError} (h : upsertE ce v s = .error e) :
    ∃ msg, e = .storage msg := by
  unfold upsertE at h
  split at h
  · cases hce : ce v with
    | some msg =>
      rw [hce] at h
      cases h
      exact ⟨_, rfl⟩
    | none =>
      rw [hce] at h
      cases h
  · cases h

theorem updateTx_error_shape {ce : GitTag → Option String} {repoID : String}
    {ttlMap : List (String × Int)} {l : List (String × Hash)} {s : Store}
    {e : ResolverError}
    (hcov : ∀ p ∈ l, (lookupA ttlMap p.1).isSome = true)
    (h : (updateTx ce repoID ttlMap l s).1 = .error e) :
    ∃ msg, e = .storage msg := by
  induction l generalizing s with
  | nil => cases h
  | cons p rest ih =>
    obtain ⟨t0, h0⟩ := p
    unfold updateTx at h
    cases hlk : lookupA ttlMap t0 with
    | none =>
      have := hcov (t0, h0) (List.mem_cons_self _ _)
      rw [hlk] at this
      cases this
    | some exp =>
      rw [hlk] at h
      dsimp only at h
      cases hup : upsertE ce ⟨repoID, t0, t0, h0.commitHash, h0.tagHash, exp⟩ s with
      | error e2 =>
        rw [hup] at h
        cases h
        exact upsertE_error_shape hup
      | ok s1 =>
        rw [hup] at h
        dsimp only at h
        exact ih (fun q hq => hcov q (List.mem_cons_of_mem _ hq)) h

theorem updateCacheDB_error_shape {ttl : CacheTTL} {env : Env}
    {repoID : String} {now : Int} {store : Store} {e : ResolverError}
    (h : (updateCacheDB ttl env repoID now store).result = .error e) :
    (∃ msg, e = .transport msg) ∨ (∃ msg, e = .invalidInput msg) ∨
      (∃ msg, e = .storage msg) := by
  cases h1 : (FetchTagAndOID env.fetchPages).1 with
  | error e2 =>
    have hx := h
    simp [updateCacheDB, h1] at hx
    rw [← hx]
    rcases fetchPagesLoop_error_shape h1 with h2 | h2
    · exact Or.inl h2
    · exact Or.inr (Or.inl h2)
  | ok m =>
    cases h2 : (updateTx env.createErr repoID
        (ttlPartition ttl now m).2 m store).1 with
    | error e2 =>
      have hx := h
      simp [updateCacheDB, h1, h2] at hx
      rw [← hx]
      exact Or.inr (Or.inr (updateTx_error_shape ttlPartition_covers h2))
    | ok s2 =>
      have hx := h
      simp [updateCacheDB, h1, h2] at hx

/-! ## C10 — the TTL-miss branch is unreachable -/

/-- C10: the partition pass assigns an expiry in `ttlMap` to every tag of
the fetched table, so `updateCacheDB` can never end in the
`failed to get a TTL for the tag` error. -/
theorem c10_ttl_map_total :
    ∀ (ttl : CacheTTL) (now : Int) (m : List (String × Hash)) (env : Env)
      (repoID : String) (store : Store),
      (m.all fun p => (lookupA (ttlPartition ttl now m).2 p.1).isSome) = true ∧
      ttlErrorOut (updateCacheDB ttl env repoID now store) = false := by
  intro ttl now m env repoID store
  constructor
  · rw [List.all_eq_true]
    exact fun p hp => ttlPartition_covers p hp
  · cases hres : (updateCacheDB ttl env repoID now store).result with
    | ok u => simp [ttlErrorOut, hres]
    | error e =>
      rcases updateCacheDB_error_shape hres with ⟨msg, he⟩ | ⟨msg, he⟩ | ⟨msg, he⟩ <;>
        simp [ttlErrorOut, hres, he]

/-! ## C7 — atomicity of the bulk refresh -/

/-- C7: if the remote fetch fails, `updateCacheDB` surfaces exactly that
error and the store is completely unchanged (nothing written, nothing
pruned); and whenever `updateCacheDB` returns any error (fetch or storage
transaction), the store is left in its last-committed state — the
transaction model commits all upserts or none, and the prune never runs on
a failed refresh. -/
theorem c7_refresh_atomic :
    ∀ (ttl : CacheTTL) (env : Env) (repoID : String) (now : Int)
      (store : Store),
      (∀ e, (FetchTagAndOID env.fetchPages).1 = .error e →
        (updateCacheDB ttl env repoID now store).result = .error e ∧
        (updateCacheDB ttl env repoID now store).store = store) ∧
      (∀ e, (updateCacheDB ttl env repoID now store).result = .error e →
        (updateCacheDB ttl env repoID now store).store = store) := by
  intro ttl env repoID now store
  constructor
  · intro e hfe
    constructor
    · simp [updateCacheDB, hfe]
    · simp [updateCacheDB, hfe]
  · intro e herr
    exact updateCacheDB_error_store herr

/-- C7 witness: a failing first page aborts the refresh with the transport
error and leaves the concrete store untouched. -/
theorem c7_witness :
    (updateCacheDB (NewCacheTTL 800) badFetchEnv "o/r" 0 [expiredRow]).result =
      .error (.transport "boom") ∧
    (updateCacheDB (NewCacheTTL 800) badFetchEnv "o/r" 0 [expiredRow]).store =
      [expiredRow] := by
  have h := (c7_refresh_atomic (NewCacheTTL 800) badFetchEnv "o/r" 0
    [expiredRow]).1 (.transport "boom") rfl
  exact h

/-! ## More lookup lemmas, first-occurrence and count lemmas -/

theorem lookupA_eq_none_of_not_mem {α : Type} {m : List (String × α)}
    {t : String} (h : t ∉ m.map Prod.fst) : lookupA m t = none := by
  induction m with
  | nil => rfl
  | cons q rest ih =>
    simp only [List.map_cons, List.mem_cons, not_or] at h
    rw [lookupA, if_neg (fun hx => h.1 hx.symm)]
    exact ih h.2

theorem mem_of_lookupA_eq_some {α : Type} {m : List (String × α)}
    {t : String} {v : α} (h : lookupA m t = some v) : (t, v) ∈ m := by
  induction m with
  | nil => cases h
  | cons q rest ih =>
    by_cases hq : q.1 = t
    · rw [lookupA, if_pos hq] at h
      cases h
      subst hq
      rw [Prod.mk.eta]
      exact List.mem_cons_self _ _
    · rw [lookupA, if_neg hq] at h
      exact List.mem_cons_of_mem _ (ih h)

theorem lookupA_eq_some_of_mem_nodup {α : Type} {m : List (String × α)}
    (hnd : (m.map Prod.fst).Nodup) {t : String} {v : α} (h : (t, v) ∈ m) :
    lookupA m t = some v := by
  induction m with
  | nil => cases h
  | cons q rest ih =>
    simp only [List.map_cons, List.nodup_cons] at hnd
    rcases List.mem_cons.mp h with h | h
    · rw [← h, lookupA, if_pos rfl]
    · have hq : ¬ q.1 = t := by
        intro he
        exact hnd.1 (he ▸ List.mem_map_of_mem Prod.fst h)
      rw [lookupA, if_neg hq]
      exact ih hnd.2 h

theorem lookupA_append_of_some {α : Type} {l1 l2 : List (String × α)}
    {t : String} {v : α} (h : lookupA l1 t = some v) :
    lookupA (l1 ++ l2) t = some v := by
  induction l1 with
  | nil => cases h
  | cons q rest ih =>
    by_cases hq : q.1 = t
    · rw [lookupA, if_pos hq] at h
      rw [List.cons_append, lookupA, if_pos hq]
      exact h
    · rw [lookupA, if_neg hq] at h
      rw [List.cons_append, lookupA, if_neg hq]
      exact ih h

theorem lookupA_append_of_none {α : Type} {l1 : List (String × α)}
    {t : String} (l2 : List (String × α)) (h : lookupA l1 t = none) :
    lookupA (l1 ++ l2) t = lookupA l2 t := by
  induction l1 with
  | nil => rfl
  | cons q rest ih =>
    by_cases hq : q.1 = t
    · rw [lookupA, if_pos hq] at h
      cases h
    · rw [lookupA, if_neg hq] at h
      rw [List.cons_append, lookupA, if_neg hq]
      exact ih h

theorem lookupH_setH_self (m : List (Hash × String)) (h : Hash) (t : String) :
    lookupH (setH m h t) h = some t := by
  induction m with
  | nil => simp [setH, lookupH]
  | cons q rest ih =>
    by_cases hq : q.1 = h
    · simp [setH, hq, lookupH]
    · simp [setH, hq, lookupH, ih]

theorem lookupH_setH_ne {h2 h : Hash} (hne : h2 ≠ h)
    (m : List (Hash × String)) (t : String) :
    lookupH (setH m h t) h2 = lookupH m h2 := by
  have hk : ¬ h = h2 := fun hx => hne hx.symm
  induction m with
  | nil => simp [setH, lookupH, hk]
  | cons q rest ih =>
    by_cases hq : q.1 = h
    · simp [setH, hq, lookupH, hk]
    · by_cases hq2 : q.1 = h2
      · simp [setH, hq, lookupH, hq2, hne]
      · simp [setH, hq, lookupH, hq2, ih]

theorem mem_of_firstTagOf {pre : List (String × Hash)} {h : Hash}
    {t : String} (hf : firstTagOf pre h = some t) : (t, h) ∈ pre := by
  unfold firstTagOf at hf
  cases hq : pre.find? fun q => q.2 = h with
  | none =>
    rw [hq] at hf
    cases hf
  | some q =>
    rw [hq] at hf
    cases hf
    have hqm := List.mem_of_find?_eq_some hq
    have hqp := List.find?_some hq
    simp only [decide_eq_true_eq] at hqp
    have : q = (q.1, h) := by
      rw [← hqp]
    rw [← this]
    exact hqm

theorem firstTagOf_append_of_some {pre l : List (String × Hash)} {h : Hash}
    {t : String} (hf : firstTagOf pre h = some t) :
    firstTagOf (pre ++ l) h = some t := by
  unfold firstTagOf at *
  cases hq : pre.find? fun q => q.2 = h with
  | none =>
    rw [hq] at hf
    cases hf
  | some q =>
    rw [List.find?_append, hq]
    rw [hq] at hf
    exact hf

theorem firstTagOf_append_of_none {pre : List (String × Hash)} {h : Hash}
    (x : String × Hash) (hf : firstTagOf pre h = none) :
    firstTagOf (pre ++ [x]) h = if x.2 = h then some x.1 else none := by
  unfold firstTagOf at *
  cases hq : pre.find? fun q => q.2 = h with
  | none =>
    rw [List.find?_append, hq]
    by_cases hx : x.2 = h
    · simp [List.find?, hx]
    · simp [List.find?, hx]
  | some q =>
    rw [hq] at hf
    cases hf

theorem firstTagOf_none_count_zero {pre : List (String × Hash)} {h : Hash}
    (hf : firstTagOf pre h = none) : countHash pre h = 0 := by
  unfold firstTagOf at hf
  rcases Option.map_eq_none.mp hf with hq
  rw [List.find?_eq_none] at hq
  unfold countHash
  rw [List.length_eq_zero, List.filter_eq_nil_iff]
  intro a ha
  exact hq a ha

theorem countHash_append_single (pre : List (String × Hash))
    (x : String × Hash) (h : Hash) :
    countHash (pre ++ [x]) h =
      countHash pre h + (if x.2 = h then 1 else 0) := by
  unfold countHash
  rw [List.filter_append, List.length_append]
  by_cases hx : x.2 = h
  · simp [hx]
  · simp [hx]

theorem countHash_pos_of_mem {pre : List (String × Hash)} {t : String}
    {h : Hash} (hm : (t, h) ∈ pre) : 0 < countHash pre h := by
  unfold countHash
  rw [List.length_pos]
  intro hnil
  have : (t, h) ∈ pre.filter fun q => q.2 = h := by
    rw [List.mem_filter]
    exact ⟨hm, by simp⟩
  rw [hnil] at this
  cases this

theorem two_mem_le_length {α : Type} {l : List α} {a b : α} (ha : a ∈ l)
    (hb : b ∈ l) (hne : a ≠ b) : 2 ≤ l.length := by
  match l with
  | [] => cases ha
  | [x] =>
    rcases List.mem_singleton.mp ha with rfl
    rcases List.mem_singleton.mp hb with rfl
    exact absurd rfl hne
  | x :: y :: rest => simp [List.length_cons]

theorem countHash_two_of_two_mem {pre : List (String × Hash)}
    {t1 t2 : String} {h : Hash} (h1 : (t1, h) ∈ pre) (h2 : (t2, h) ∈ pre)
    (hne : t1 ≠ t2) : 2 ≤ countHash pre h := by
  unfold countHash
  have hf1 : (t1, h) ∈ pre.filter fun q => q.2 = h := by
    rw [List.mem_filter]
    exact ⟨h1, by simp⟩
  have hf2 : (t2, h) ∈ pre.filter fun q => q.2 = h := by
    rw [List.mem_filter]
    exact ⟨h2, by simp⟩
  exact two_mem_le_length hf1 hf2 (by simp [hne])

/-! ## The TTL-partition invariant (C2) -/

theorem ttlStep_invariant {ttl : CacheTTL} {now : Int}
    {pre : List (String × Hash)}
    {acc : List (Hash × String) × List (String × Int)} {x : String × Hash}
    (hndpre : (pre.map Prod.fst).Nodup)
    (hx : x.1 ∉ pre.map Prod.fst)
    (h1 : ∀ hh, lookupH acc.1 hh = firstTagOf pre hh)
    (h2 : ∀ t, lookupA acc.2 t = (lookupA pre t).map fun hh =>
      now + (if 2 ≤ countHash pre hh then ttl.gitAliasTagTTL
        else ttl.gitTagTTL)) :
    (∀ hh, lookupH (ttlStep ttl now acc x).1 hh =
      firstTagOf (pre ++ [x]) hh) ∧
    (∀ t, lookupA (ttlStep ttl now acc x).2 t =
      (lookupA (pre ++ [x]) t).map fun hh =>
        now + (if 2 ≤ countHash (pre ++ [x]) hh then ttl.gitAliasTagTTL
          else ttl.gitTagTTL)) := by
  obtain ⟨t0, h0⟩ := x
  simp only [List.map_cons] at hx
  unfold ttlStep
  dsimp only
  cases hlh : lookupH acc.1 h0 with
  | some existTag =>
    dsimp only
    have hfirst : firstTagOf pre h0 = some existTag := by
      rw [← h1 h0]
      exact hlh
    have hmem : (existTag, h0) ∈ pre := mem_of_firstTagOf hfirst
    have hexk : existTag ∈ pre.map Prod.fst :=
      List.mem_map_of_mem Prod.fst hmem
    have hexne : existTag ≠ t0 := fun he => hx (he ▸ hexk)
    have hpreval : lookupA pre existTag = some h0 :=
      lookupA_eq_some_of_mem_nodup hndpre hmem
    have hcount1 : 0 < countHash pre h0 := countHash_pos_of_mem hmem
    have hcx : countHash (pre ++ [(t0, h0)]) h0 = countHash pre h0 + 1 := by
      rw [countHash_append_single]
      simp
    constructor
    · intro hh
      cases hfh : firstTagOf pre hh with
      | some s =>
        rw [firstTagOf_append_of_some hfh, h1 hh, hfh]
      | none =>
        have hhne : ¬ (((t0, h0) : String × Hash).2 = hh) := by
          intro he
          dsimp only at he
          rw [he] at hfirst
          rw [hfh] at hfirst
          cases hfirst
        rw [firstTagOf_append_of_none _ hfh, if_neg hhne, h1 hh, hfh]
    · intro t
      by_cases hte : t = existTag
      · subst hte
        rw [lookupA_setA_self, lookupA_append_of_some hpreval]
        have hc2 : 2 ≤ countHash (pre ++ [(t0, h0)]) h0 := by omega
        simp [hc2]
      · by_cases ht0 : t = t0
        · subst ht0
          rw [lookupA_setA_ne hte, lookupA_setA_self]
          have hnone : lookupA pre t = none := lookupA_eq_none_of_not_mem hx
          rw [lookupA_append_of_none _ hnone]
          have hsing : lookupA [((t : String), h0)] t = some h0 := by
            simp [lookupA]
          rw [hsing]
          have hc2 : 2 ≤ countHash (pre ++ [(t, h0)]) h0 := by omega
          simp [hc2]
        · rw [lookupA_setA_ne hte, lookupA_setA_ne ht0, h2 t]
          cases hpt : lookupA pre t with
          | none =>
            rw [lookupA_append_of_none _ hpt]
            have hsing : lookupA [((t0 : String), h0)] t = none := by
              rw [lookupA, if_neg (fun he => ht0 he.symm)]
              rfl
            rw [hsing]
            rfl
          | some hv =>
            rw [lookupA_append_of_some hpt]
            simp only [Option.map_some']
            by_cases hvh : hv = h0
            · subst hvh
              have hc2 : 2 ≤ countHash pre hv :=
                countHash_two_of_two_mem (mem_of_lookupA_eq_some hpt) hmem hte
              have hc2b : 2 ≤ countHash (pre ++ [(t0, hv)]) hv := by omega
              simp [hc2, hc2b]
            · have hvne : ¬ (((t0, h0) : String × Hash).2 = hv) := by
                intro he
                dsimp only at he
                exact hvh he.symm
              have hcu : countHash (pre ++ [(t0, h0)]) hv = countHash pre hv := by
                rw [countHash_append_single, if_neg hvne]
                omega
              rw [hcu]
  | none =>
    dsimp only
    have hfirst : firstTagOf pre h0 = none := by
      rw [← h1 h0]
      exact hlh
    have hcz : countHash pre h0 = 0 := firstTagOf_none_count_zero hfirst
    constructor
    · intro hh
      by_cases hhh : hh = h0
      · subst hhh
        rw [lookupH_setH_self, firstTagOf_append_of_none _ hfirst]
        simp
      · rw [lookupH_setH_ne hhh, h1 hh]
        cases hfh : firstTagOf pre hh with
        | some s => rw [firstTagOf_append_of_some hfh]
        | none =>
          rw [firstTagOf_append_of_none _ hfh,
            if_neg (fun he => hhh (by dsimp only at he; rw [he]))]
    · intro t
      by_cases ht0 : t = t0
      · subst ht0
        rw [lookupA_setA_self]
        have hnone : lookupA pre t = none := lookupA_eq_none_of_not_mem hx
        rw [lookupA_append_of_none _ hnone]
        have hsing : lookupA [((t : String), h0)] t = some h0 := by
          simp [lookupA]
        rw [hsing]
        have hc1 : countHash (pre ++ [(t, h0)]) h0 = 1 := by
          rw [countHash_append_single]
          simp [hcz]
        have hno2 : ¬ 2 ≤ countHash (pre ++ [(t, h0)]) h0 := by omega
        simp [hno2]
      · rw [lookupA_setA_ne ht0, h2 t]
        cases hpt : lookupA pre t with
        | none =>
          rw [lookupA_append_of_none _ hpt]
          have hsing : lookupA [((t0 : String), h0)] t = none := by
            rw [lookupA, if_neg (fun he => ht0 he.symm)]
            rfl
          rw [hsing]
          rfl
        | some hv =>
          rw [lookupA_append_of_some hpt]
          simp only [Option.map_some']
          have hvne : ¬ (((t0, h0) : String × Hash).2 = hv) := by
            intro he
            dsimp only at he
            have := countHash_pos_of_mem (he ▸ mem_of_lookupA_eq_some hpt)
            omega
          have hcu : countHash (pre ++ [(t0, h0)]) hv = countHash pre hv := by
            rw [countHash_append_single, if_neg hvne]
            omega
          rw [hcu]

theorem foldl_ttlStep_invariant {ttl : CacheTTL} {now : Int} :
    ∀ (l pre : List (String × Hash))
      (acc : List (Hash × String) × List (String × Int)),
      ((pre ++ l).map Prod.fst).Nodup →
      (∀ hh, lookupH acc.1 hh = firstTagOf pre hh) →
      (∀ t, lookupA acc.2 t = (lookupA pre t).map fun hh =>
        now + (if 2 ≤ countHash pre hh then ttl.gitAliasTagTTL
          else ttl.gitTagTTL)) →
      ∀ t, lookupA (List.foldl (ttlStep ttl now) acc l).2 t =
        (lookupA (pre ++ l) t).map fun hh =>
          now + (if 2 ≤ countHash (pre ++ l) hh then ttl.gitAliasTagTTL
            else ttl.gitTagTTL) := by
  intro l
  induction l with
  | nil =>
    intro pre acc hnd h1 h2 t
    simpa using h2 t
  | cons x rest ih =>
    intro pre acc hnd h1 h2 t
    rw [List.map_append, List.map_cons, List.nodup_append] at hnd
    have hndpre : (pre.map Prod.fst).Nodup := hnd.1
    have hx : x.1 ∉ pre.map Prod.fst :=
      fun hmem => hnd.2.2 hmem (List.mem_cons_self _ _)
    have hstep := ttlStep_invariant hndpre hx h1 h2
    have hnd2 : (((pre ++ [x]) ++ rest).map Prod.fst).Nodup := by
      rw [List.append_assoc, List.singleton_append, List.map_append,
        List.map_cons, List.nodup_append]
      exact hnd
    have hres := ih (pre ++ [x]) (ttlStep ttl now acc x) hnd2 hstep.1 hstep.2
    rw [List.foldl_cons]
    have happ : (pre ++ [x]) ++ rest = pre ++ x :: rest := by simp
    rw [happ] at hres
    exact hres t

theorem countHash_two_iff {m : List (String × Hash)}
    (hnd : (m.map Prod.fst).Nodup) {t : String} {hash : Hash}
    (hm : (t, hash) ∈ m) :
    2 ≤ countHash m hash ↔ pairShared m (t, hash) = true := by
  constructor
  · intro hc
    by_contra hps
    have hall : ∀ q ∈ m, q.2 = hash → q.1 = t := by
      intro q hq hq2
      by_contra hq1
      apply hps
      unfold pairShared
      rw [List.any_eq_true]
      exact ⟨q, hq, by simp [hq2, hq1]⟩
    have hfe : ∀ q ∈ m.filter (fun q => q.2 = hash), q = (t, hash) := by
      intro q hq
      rw [List.mem_filter] at hq
      have hq2 : q.2 = hash := by simpa using hq.2
      have hq1 : q.1 = t := hall q hq.1 hq2
      rw [← @Prod.mk.eta _ _ q, hq1, hq2]
    have hndf : (m.filter fun q => q.2 = hash).Nodup :=
      (List.Nodup.of_map _ hnd).filter _
    have hlen : (m.filter fun q => q.2 = hash).length ≤ 1 := by
      rcases hl : m.filter fun q => q.2 = hash with _ | ⟨a, _ | ⟨b, r⟩⟩
      · simp [hl]
      · simp [hl]
      · exfalso
        have ha := hfe a (by rw [hl]; exact List.mem_cons_self _ _)
        have hb := hfe b
          (by rw [hl]; exact List.mem_cons_of_mem _ (List.mem_cons_self _ _))
        rw [hl] at hndf
        rcases List.nodup_cons.mp hndf with ⟨hna, _⟩
        exact hna (by rw [ha, ← hb]; exact List.mem_cons_self _ _)
    unfold countHash at hc
    omega
  · intro hps
    unfold pairShared at hps
    rw [List.any_eq_true] at hps
    obtain ⟨q, hq, hqp⟩ := hps
    simp only [decide_eq_true_eq, Bool.and_eq_true, ne_eq,
      decide_not, Bool.not_eq_true', decide_eq_false_iff_not] at hqp
    have hq2 : (q.1, hash) = q := by
      rw [← hqp.1]
    have hqm : (q.1, hash) ∈ m := by
      rw [hq2]
      exact hq
    exact countHash_two_of_two_mem hqm hm hqp.2

theorem ttlPartition_lookup {ttl : CacheTTL} {now : Int}
    {m : List (String × Hash)} (hnd : (m.map Prod.fst).Nodup) {t : String}
    {hash : Hash} (hm : (t, hash) ∈ m) :
    lookupA (ttlPartition ttl now m).2 t =
      some (now + (if pairShared m (t, hash) = true then ttl.gitAliasTagTTL
        else ttl.gitTagTTL)) := by
  have hfold := @foldl_ttlStep_invariant ttl now m [] ([], [])
    (by simpa using hnd) (fun hh => rfl) (fun s => rfl) t
  simp only [List.nil_append] at hfold
  rw [ttlPartition, hfold, lookupA_eq_some_of_mem_nodup hnd hm]
  simp only [Option.map_some']
  by_cases hp : pairShared m (t, hash) = true
  · rw [if_pos ((countHash_two_iff hnd hm).mpr hp), if_pos hp]
  · rw [if_neg (fun hc => hp ((countHash_two_iff hnd hm).mp hc)), if_neg hp]

/-! ## Upsert establishment and preservation -/

theorem applyUpdates_eq_of_nonzero {v : GitTag} (r : GitTag)
    (h1 : v.repoID ≠ "") (h2 : v.tag ≠ "") (h3 : v.baseTag ≠ "")
    (h4 : v.commitHash ≠ "") (h5 : v.tagHash ≠ "") (h6 : v.expiredAt ≠ 0) :
    applyUpdates v r = v := by
  cases v
  simp_all [applyUpdates]

theorem upsertE_establishes {ce : GitTag → Option String} {v : GitTag}
    {s s2 : Store}
    (h1 : v.repoID ≠ "") (h2 : v.tag ≠ "") (h3 : v.baseTag ≠ "")
    (h4 : v.commitHash ≠ "") (h5 : v.tagHash ≠ "") (h6 : v.expiredAt ≠ 0)
    (h : upsertE ce v s = .ok s2) : v ∈ s2 := by
  unfold upsertE at h
  split at h
  · cases hce : ce v with
    | some msg =>
      rw [hce] at h
      cases h
    | none =>
      rw [hce] at h
      cases h
      exact List.mem_append_right _ (List.mem_singleton_self _)
  · next hc =>
    cases h
    have hne : s.filter (upsertWhereMatch v) ≠ [] := by
      intro hnil
      exact hc (by rw [hnil]; rfl)
    obtain ⟨r0, hr0⟩ := List.exists_mem_of_ne_nil _ hne
    rw [List.mem_filter] at hr0
    refine List.mem_map.mpr ⟨r0, hr0.1, ?_⟩
    rw [if_pos hr0.2]
    exact applyUpdates_eq_of_nonzero r0 h1 h2 h3 h4 h5 h6

theorem upsertE_preserves {ce : GitTag → Option String} {w v : GitTag}
    {s s2 : Store} (hv : v ∈ s) (hwt : w.tag ≠ "") (hne : v.tag ≠ w.tag)
    (h : upsertE ce w s = .ok s2) : v ∈ s2 := by
  unfold upsertE at h
  split at h
  · cases hce : ce w with
    | some msg =>
      rw [hce] at h
      cases h
    | none =>
      rw [hce] at h
      cases h
      exact List.mem_append_left _ hv
  · cases h
    have hm : upsertWhereMatch w v = false := by
      simp [upsertWhereMatch, hwt, hne]
    refine List.mem_map.mpr ⟨v, hv, ?_⟩
    rw [hm]
    simp

theorem updateTx_preserves {ce : GitTag → Option String} {repoID : String}
    {ttlMap : List (String × Int)} {l : List (String × Hash)} {s s2 : Store}
    {v : GitTag} (hv : v ∈ s)
    (hl : ∀ p ∈ l, p.1 ≠ "" ∧ p.1 ≠ v.tag)
    (htx : (updateTx ce repoID ttlMap l s).1 = .ok s2) : v ∈ s2 := by
  induction l generalizing s with
  | nil =>
    cases htx
    exact hv
  | cons p rest ih =>
    obtain ⟨t0, h0⟩ := p
    unfold updateTx at htx
    cases hlk0 : lookupA ttlMap t0 with
    | none =>
      rw [hlk0] at htx
      simp at htx
    | some exp0 =>
      rw [hlk0] at htx
      dsimp only at htx
      cases hup : upsertE ce ⟨repoID, t0, t0, h0.commitHash, h0.tagHash, exp0⟩ s with
      | error e =>
        rw [hup] at htx
        simp at htx
      | ok s1 =>
        rw [hup] at htx
        dsimp only at htx
        have hhead := hl (t0, h0) (List.mem_cons_self _ _)
        have hv1 : v ∈ s1 :=
          upsertE_preserves hv hhead.1 (fun he => hhead.2 he.symm) hup
        exact ih hv1 (fun q hq => hl q (List.mem_cons_of_mem _ hq)) htx

theorem updateTx_establishes {ce : GitTag → Option String} {repoID : String}
    {ttlMap : List (String × Int)} {l : List (String × Hash)} {s s2 : Store}
    {t : String} {hsh : Hash} {exp : Int}
    (hnd : (l.map Prod.fst).Nodup)
    (hne : ∀ p ∈ l, p.1 ≠ "")
    (hm : (t, hsh) ∈ l)
    (hlk : lookupA ttlMap t = some exp)
    (hrid : repoID ≠ "") (hch : hsh.commitHash ≠ "") (hth : hsh.tagHash ≠ "")
    (hexp : exp ≠ 0)
    (htx : (updateTx ce repoID ttlMap l s).1 = .ok s2) :
    (⟨repoID, t, t, hsh.commitHash, hsh.tagHash, exp⟩ : GitTag) ∈ s2 := by
  induction l generalizing s with
  | nil => cases hm
  | cons p rest ih =>
    obtain ⟨t0, h0⟩ := p
    unfold updateTx at htx
    cases hlk0 : lookupA ttlMap t0 with
    | none =>
      rw [hlk0] at htx
      simp at htx
    | some exp0 =>
      rw [hlk0] at htx
      dsimp only at htx
      cases hup : upsertE ce ⟨repoID, t0, t0, h0.commitHash, h0.tagHash, exp0⟩ s with
      | error e =>
        rw [hup] at htx
        simp at htx
      | ok s1 =>
        rw [hup] at htx
        dsimp only at htx
        simp only [List.map_cons, List.nodup_cons] at hnd
        by_cases hteq : t0 = t
        · subst hteq
          have hh0 : hsh = h0 := by
            rcases List.mem_cons.mp hm with hm1 | hm2
            · exact congrArg Prod.snd hm1
            · exact absurd (List.mem_map_of_mem Prod.fst hm2) hnd.1
          subst hh0
          have hexp0 : exp0 = exp := by
            rw [hlk] at hlk0
            exact (Option.some.injEq _ _ ▸ hlk0).symm
          rw [hexp0] at hup
          have ht0ne : t0 ≠ "" := hne (t0, hsh) (List.mem_cons_self _ _)
          have hvin : (⟨repoID, t0, t0, hsh.commitHash, hsh.tagHash, exp⟩ :
              GitTag) ∈ s1 :=
            upsertE_establishes hrid ht0ne ht0ne hch hth hexp hup
          refine updateTx_preserves hvin ?_ htx
          intro q hq
          refine ⟨hne q (List.mem_cons_of_mem _ hq), ?_⟩
          intro hqe
          dsimp only at hqe
          exact hnd.1 (hqe ▸ List.mem_map_of_mem Prod.fst hq)
        · have hm2 : (t, hsh) ∈ rest := by
            rcases List.mem_cons.mp hm with hm1 | hm2
            · exact absurd (congrArg Prod.fst hm1).symm hteq
            · exact hm2
          exact ih hnd.2 (fun q hq => hne q (List.mem_cons_of_mem _ hq)) hm2 htx

/-! ## C2 — expiry assignment of the bulk refresh -/

/-- C2: after one successful bulk refresh that fetched table `m`, for every
tag of `m` the store contains an entry with `baseTag` equal to the tag
itself, whose expiry is `now + gitAliasTagTTL` when the tag's
`(commitHash, tagHash)` pair is shared with another tag of `m`, and
`now + gitTagTTL` when the pair is unique in `m`. -/
theorem c2_bulk_refresh_ttl_assignment :
    ∀ (ttl : CacheTTL) (env : Env) (repoID : String) (now : Int)
      (store : Store) (m : List (String × Hash)) (t : String) (hsh : Hash),
      (FetchTagAndOID env.fetchPages).1 = .ok m →
      (m.map Prod.fst).Nodup →
      (∀ p ∈ m, p.1 ≠ "") →
      (t, hsh) ∈ m →
      repoID ≠ "" → hsh.commitHash ≠ "" → hsh.tagHash ≠ "" →
      0 < now → 0 ≤ ttl.gitAliasTagTTL → 0 ≤ ttl.gitTagTTL →
      (updateCacheDB ttl env repoID now store).result = .ok () →
      (⟨repoID, t, t, hsh.commitHash, hsh.tagHash,
        now + (if pairShared m (t, hsh) = true then ttl.gitAliasTagTTL
          else ttl.gitTagTTL)⟩ : GitTag) ∈
        (updateCacheDB ttl env repoID now store).store := by
  intro ttl env repoID now store m t hsh hf hnd hne hm hrid hch hth hnow
    halias htag hok
  obtain ⟨m2, s2, hf2, htx, hst⟩ := updateCacheDB_ok_decomp hok
  rw [hf] at hf2
  cases hf2
  have hle : now ≤ now + (if pairShared m (t, hsh) = true
      then ttl.gitAliasTagTTL else ttl.gitTagTTL) := by
    by_cases hp : pairShared m (t, hsh) = true
    · rw [if_pos hp]
      omega
    · rw [if_neg hp]
      omega
  have hexp : now + (if pairShared m (t, hsh) = true then ttl.gitAliasTagTTL
      else ttl.gitTagTTL) ≠ 0 := by omega
  have hlk := @ttlPartition_lookup ttl now m hnd t hsh hm
  have hv := updateTx_establishes hnd hne hm hlk hrid hch hth hexp htx
  rw [hst]
  unfold pruneStore
  rw [List.mem_filter]
  refine ⟨hv, ?_⟩
  simp only [decide_eq_true_eq, not_lt]
  exact hle

/-- C2 witness: two tags sharing one hash pair both get the alias TTL
(base 800 → alias 100, so expiry 200 at reference time 100). -/
theorem c2_witness :
    (⟨"o/r", "v1", "v1", sha40a, "t1", 200⟩ : GitTag) ∈
      (updateCacheDB (NewCacheTTL 800) aliasEnv "o/r" 100 []).store := by
  have h := c2_bulk_refresh_ttl_assignment (NewCacheTTL 800) aliasEnv "o/r"
    100 [] [("v1", ⟨sha40a, "t1"⟩), ("v1.0.0", ⟨sha40a, "t1"⟩)] "v1"
    ⟨sha40a, "t1"⟩ rfl (by decide) (by decide) (by decide) (by decide)
    (by decide) (by decide) (by decide) (by decide) (by decide) rfl
  simpa using h

/-! ## C5 — the double-miss fallback paths -/

theorem upsertE_ne_error_of_none {ce : GitTag → Option String} {v : GitTag}
    {s : Store} (h : ce v = none) (e : ResolverError) :
    upsertE ce v s ≠ .error e := by
  unfold upsertE
  split
  · rw [h]
    intro hx
    cases hx
  · intro hx
    cases hx

/-- C5: on a double cache miss, both resolvers fall back to local git
introspection: the tag resolver returns and stores an entry with `tagHash`
from `rev-parse` of the tag, `baseTag` from `describe --tags --abbrev=0` of
that tag hash, `commitHash` from `rev-list` of the tag, and
`expiresAt = now + gitFileTTL`; the hash resolver returns a single-element
result whose tag is the `describe --tags` name of the hash, stored with the
same TTL. -/
theorem c5_fallback_paths :
    ∀ (ttl : CacheTTL) (env : Env) (repoID tag hash : String) (now : Int)
      (store : Store) (th bt ch dtag bt2 th2 ch2 : String),
      (tag ≠ "" →
        lookupByTag repoID tag now store = none →
        (updateCacheDB ttl env repoID now store).result = .ok () →
        lookupByTag repoID tag now
          (updateCacheDB ttl env repoID now store).store = none →
        env.gd.runGitRevParse repoID ttl.gitFileTTL [tag] = .ok th →
        env.gd.runGitDescribe repoID ttl.gitFileTTL
          ["--tags", "--abbrev=0", th] = .ok bt →
        env.gd.runGitRevList repoID ttl.gitFileTTL ["-n", "1", tag] = .ok ch →
        env.createErr ⟨repoID, tag, bt, ch, th, now + ttl.gitFileTTL⟩ = none →
        repoID ≠ "" → bt ≠ "" → ch ≠ "" → th ≠ "" →
        now + ttl.gitFileTTL ≠ 0 →
        (ResolveFromTagContext ttl env repoID tag now store).result =
          .ok ⟨repoID, tag, bt, ch, th, now + ttl.gitFileTTL⟩ ∧
        (⟨repoID, tag, bt, ch, th, now + ttl.gitFileTTL⟩ : GitTag) ∈
          (ResolveFromTagContext ttl env repoID tag now store).store) ∧
      (IsSHA hash = true →
        lookupByHash repoID hash now store = [] →
        (updateCacheDB ttl env repoID now store).result = .ok () →
        lookupByHash repoID hash now
          (updateCacheDB ttl env repoID now store).store = [] →
        env.gd.runGitDescribe repoID ttl.gitFileTTL ["--tags", hash] =
          .ok dtag →
        env.gd.runGitDescribe repoID ttl.gitFileTTL
          ["--tags", "--abbrev=0", hash] = .ok bt2 →
        env.gd.runGitRevParse repoID ttl.gitFileTTL [dtag] = .ok th2 →
        env.gd.runGitRevList repoID ttl.gitFileTTL ["-n", "1", dtag] =
          .ok ch2 →
        env.createErr ⟨repoID, dtag, bt2, ch2, th2, now + ttl.gitFileTTL⟩ =
          none →
        repoID ≠ "" → dtag ≠ "" → bt2 ≠ "" → ch2 ≠ "" → th2 ≠ "" →
        now + ttl.gitFileTTL ≠ 0 →
        (ResolveFromHashContext ttl env repoID hash now store).result =
          .ok [⟨repoID, dtag, bt2, ch2, th2, now + ttl.gitFileTTL⟩] ∧
        (⟨repoID, dtag, bt2, ch2, th2, now + ttl.gitFileTTL⟩ : GitTag) ∈
          (ResolveFromHashContext ttl env repoID hash now store).store) := by
  intro ttl env repoID tag hash now store th bt ch dtag bt2 th2 ch2
  constructor
  · intro htag hlk1 hok hlk2 hrp hbt hcl hce hrid hbtne hchne hthne hexpne
    cases hup : upsertE env.createErr
        ⟨repoID, tag, bt, ch, th, now + ttl.gitFileTTL⟩
        (updateCacheDB ttl env repoID now store).store with
    | error e => exact absurd hup (upsertE_ne_error_of_none hce e)
    | ok s3 =>
      have hmem := upsertE_establishes hrid htag hbtne hchne hthne hexpne hup
      constructor
      · simp only [ResolveFromTagContext, resolveTagHashFromGitObj,
          resolveBaseTagFromGitObj, resolveCommitHashFromGitObj, htag,
          if_false, hlk1, hok, hlk2, hrp, hbt, hcl, hup]
      · simp only [ResolveFromTagContext, resolveTagHashFromGitObj,
          resolveBaseTagFromGitObj, resolveCommitHashFromGitObj, htag,
          if_false, hlk1, hok, hlk2, hrp, hbt, hcl, hup]
        exact hmem
  · intro hsha hlk1 hok hlk2 hdt hbt hrp hcl hce hrid hdtne hbtne hchne
      hthne hexpne
    cases hup : upsertE env.createErr
        ⟨repoID, dtag, bt2, ch2, th2, now + ttl.gitFileTTL⟩
        (updateCacheDB ttl env repoID now store).store with
    | error e => exact absurd hup (upsertE_ne_error_of_none hce e)
    | ok s3 =>
      have hmem := upsertE_establishes hrid hdtne hbtne hchne hthne hexpne hup
      constructor
      · simp only [ResolveFromHashContext, resolveTagHashFromGitObj,
          resolveBaseTagFromGitObj, resolveCommitHashFromGitObj, hsha,
          if_true, hlk1, hok, hlk2, hdt, hbt, hrp, hcl, hup]
        simp [hlk1, hlk2]
      · simp only [ResolveFromHashContext, resolveTagHashFromGitObj,
          resolveBaseTagFromGitObj, resolveCommitHashFromGitObj, hsha,
          if_true, hlk1, hok, hlk2, hdt, hbt, hrp, hcl, hup]
        simp [hlk1, hlk2]
        exact hmem

/-- C5 witness: both fallback paths run on a concrete double miss (empty
store, empty remote listing, echoing git executor). -/
theorem c5_witness :
    (ResolveFromTagContext (NewCacheTTL 800) echoEnv "o/r" "t" 100 []).result =
      .ok ⟨"o/r", "t", "d.--tags.--abbrev=0.rp.t", "rl.-n.1.t", "rp.t",
        24100⟩ ∧
    (ResolveFromHashContext (NewCacheTTL 800) echoEnv "o/r" sha40a 100
        []).result =
      .ok [⟨"o/r", "d.--tags." ++ sha40a, "d.--tags.--abbrev=0." ++ sha40a,
        "rl.-n.1.d.--tags." ++ sha40a, "rp.d.--tags." ++ sha40a, 24100⟩] := by
  have h := c5_fallback_paths (NewCacheTTL 800) echoEnv "o/r" "t" sha40a 100
    [] "rp.t" "d.--tags.--abbrev=0.rp.t" "rl.-n.1.t" ("d.--tags." ++ sha40a)
    ("d.--tags.--abbrev=0." ++ sha40a) ("rp.d.--tags." ++ sha40a)
    ("rl.-n.1.d.--tags." ++ sha40a)
  refine ⟨(h.1 (by decide) rfl rfl rfl rfl rfl rfl rfl (by decide) (by decide)
    (by decide) (by decide) (by decide)).1, ?_⟩
  exact (h.2 (by decide) rfl rfl rfl rfl rfl rfl rfl rfl (by decide)
    (by decide) (by decide) (by decide) (by decide) (by decide)).1

/-! ## C6 — a cache hit is stable until the entry expires -/

theorem lookupByTag_later {repoID tag : String} {now now2 : Int} {s : Store}
    {e : GitTag} (hle : now ≤ now2) (hexp : now2 ≤ e.expiredAt) :
    lookupByTag repoID tag now s = some e →
    lookupByTag repoID tag now2 s = some e := by
  induction s with
  | nil =>
    intro h
    cases h
  | cons r rest ih =>
    intro h
    unfold lookupByTag at h ⊢
    by_cases hc : (repoID = "" ∨ r.repoID = repoID) ∧
        (tag = "" ∨ r.tag = tag) ∧ now ≤ r.expiredAt
    · rw [List.find?_cons_of_pos _ (by simpa using hc)] at h
      cases h
      rw [List.find?_cons_of_pos _ (by
        simp only [decide_eq_true_eq]
        exact ⟨hc.1, hc.2.1, hexp⟩)]
    · rw [List.find?_cons_of_neg _ (by simpa using hc)] at h
      have hc2 : ¬ ((repoID = "" ∨ r.repoID = repoID) ∧
          (tag = "" ∨ r.tag = tag) ∧ now2 ≤ r.expiredAt) :=
        fun hcc => hc ⟨hcc.1, hcc.2.1, le_trans hle hcc.2.2⟩
      rw [List.find?_cons_of_neg _ (by simpa using hc2)]
      exact ih h

theorem lookupByTag_map_upsert {repoID tag : String} {now2 : Int}
    {v : GitTag}
    (hvr : v.repoID = repoID) (hvt : v.tag = tag)
    (hexp : now2 ≤ v.expiredAt)
    (h1 : v.repoID ≠ "") (h2 : v.tag ≠ "") (h3 : v.baseTag ≠ "")
    (h4 : v.commitHash ≠ "") (h5 : v.tagHash ≠ "") (h6 : v.expiredAt ≠ 0) :
    ∀ l : Store,
      (∀ r ∈ l, ¬ ((repoID = "" ∨ r.repoID = repoID) ∧
        (tag = "" ∨ r.tag = tag) ∧ now2 ≤ r.expiredAt)) →
      (l.filter (upsertWhereMatch v)).isEmpty = false →
      lookupByTag repoID tag now2
        (l.map fun r => if upsertWhereMatch v r then applyUpdates v r else r) =
        some v := by
  intro l
  induction l with
  | nil =>
    intro _ hne
    cases hne
  | cons r rest ih =>
    intro hall hne
    by_cases hm : upsertWhereMatch v r = true
    · unfold lookupByTag
      rw [List.map_cons, if_pos hm, applyUpdates_eq_of_nonzero r h1 h2 h3 h4 h5 h6]
      rw [List.find?_cons_of_pos _ (by
        simp only [decide_eq_true_eq]
        exact ⟨Or.inr hvr, Or.inr hvt, hexp⟩)]
    · have hrest : (rest.filter (upsertWhereMatch v)).isEmpty = false := by
        rw [List.filter_cons, if_neg (by simp [hm])] at hne
        exact hne
      have hres := ih (fun q hq => hall q (List.mem_cons_of_mem _ hq)) hrest
      unfold lookupByTag at hres ⊢
      rw [List.map_cons, if_neg hm]
      rw [List.find?_cons_of_neg _ (by
        simpa using hall r (List.mem_cons_self _ _))]
      exact hres

theorem lookupByTag_after_upsert {repoID tag : String} {now now2 : Int}
    {s2 s3 : Store} {v : GitTag} {ce : GitTag → Option String}
    (hmiss : lookupByTag repoID tag now s2 = none)
    (hup : upsertE ce v s2 = .ok s3)
    (hvr : v.repoID = repoID) (hvt : v.tag = tag)
    (h1 : v.repoID ≠ "") (h2 : v.tag ≠ "") (h3 : v.baseTag ≠ "")
    (h4 : v.commitHash ≠ "") (h5 : v.tagHash ≠ "") (h6 : v.expiredAt ≠ 0)
    (hle : now ≤ now2) (hexp : now2 ≤ v.expiredAt) :
    lookupByTag repoID tag now2 s3 = some v := by
  have hall : ∀ r ∈ s2, ¬ ((repoID = "" ∨ r.repoID = repoID) ∧
      (tag = "" ∨ r.tag = tag) ∧ now2 ≤ r.expiredAt) := by
    intro r hr hcc
    have hfail := List.find?_eq_none.mp hmiss r hr
    simp only [decide_eq_true_eq] at hfail
    exact hfail ⟨hcc.1, hcc.2.1, le_trans hle hcc.2.2⟩
  unfold upsertE at hup
  split at hup
  · next hcempty =>
    cases hce : ce v with
    | some msg =>
      rw [hce] at hup
      cases hup
    | none =>
      rw [hce] at hup
      cases hup
      unfold lookupByTag
      rw [List.find?_append]
      have hnone : List.find? (fun r => decide ((repoID = "" ∨ r.repoID = repoID) ∧
          (tag = "" ∨ r.tag = tag) ∧ now2 ≤ r.expiredAt)) s2 = none := by
        rw [List.find?_eq_none]
        intro r hr
        simpa using hall r hr
      rw [hnone]
      simp only [Option.none_or]
      rw [List.find?_cons_of_pos _ (by
        simp only [decide_eq_true_eq]
        exact ⟨Or.inr hvr, Or.inr hvt, hexp⟩)]
  · next hcempty =>
    cases hup
    refine lookupByTag_map_upsert hvr hvt hexp h1 h2 h3 h4 h5 h6 s2 hall ?_
    cases hie : (s2.filter (upsertWhereMatch v)).isEmpty with
    | false => rfl
    | true => exact absurd hie hcempty

/-- C6: if `ResolveFromTagContext` succeeds with entry `e` and is called
again with the same repository and tag before `e` expires, the second call
— under **any** environment, so it can touch neither the remote nor git —
returns the identical entry, leaves the store unchanged, and performs
exactly one read-only cache lookup. -/
theorem c6_second_call_pure_hit :
    ∀ (ttl : CacheTTL) (env env2 : Env) (repoID tag : String)
      (now now2 : Int) (store : Store) (e : GitTag),
      tag ≠ "" → repoID ≠ "" → 0 < now → now ≤ now2 → now2 ≤ e.expiredAt →
      e.baseTag ≠ "" → e.commitHash ≠ "" → e.tagHash ≠ "" →
      (ResolveFromTagContext ttl env repoID tag now store).result = .ok e →
      ResolveFromTagContext ttl env2 repoID tag now2
          (ResolveFromTagContext ttl env repoID tag now store).store =
        ⟨.ok e, (ResolveFromTagContext ttl env repoID tag now store).store,
          [.cacheRead]⟩ := by
  intro ttl env env2 repoID tag now now2 store e htag hrid hnow hle hexp
    hbt hch hth hres
  cases hlk1 : lookupByTag repoID tag now store with
  | some e0 =>
    have hF : ResolveFromTagContext ttl env repoID tag now store =
        ⟨.ok e0, store, [.cacheRead]⟩ := by
      simp only [ResolveFromTagContext, htag, if_false, hlk1]
    rw [hF] at hres ⊢
    have he : e0 = e := by simpa using hres
    subst he
    have hlk2 := lookupByTag_later hle hexp hlk1
    simp only [ResolveFromTagContext, htag, if_false, hlk2]
  | none =>
    cases hu : (updateCacheDB ttl env repoID now store).result with
    | error err =>
      have hFr : (ResolveFromTagContext ttl env repoID tag now store).result =
          .error err := by
        simp only [ResolveFromTagContext, htag, if_false, hlk1, hu]
      rw [hFr] at hres
      cases hres
    | ok u0 =>
      cases hlk2 : lookupByTag repoID tag now
          (updateCacheDB ttl env repoID now store).store with
      | some e0 =>
        have hFr : (ResolveFromTagContext ttl env repoID tag now
            store).result = .ok e0 := by
          simp only [ResolveFromTagContext, htag, if_false, hlk1, hu, hlk2]
        have hFs : (ResolveFromTagContext ttl env repoID tag now store).store =
            (updateCacheDB ttl env repoID now store).store := by
          simp only [ResolveFromTagContext, htag, if_false, hlk1, hu, hlk2]
        rw [hFr] at hres
        have he : e0 = e := by simpa using hres
        subst he
        have hlk3 := lookupByTag_later hle hexp hlk2
        rw [hFs]
        simp only [ResolveFromTagContext, htag, if_false, hlk3]
      | none =>
        cases hrp : env.gd.runGitRevParse repoID ttl.gitFileTTL [tag] with
        | error m =>
          have hFr : (ResolveFromTagContext ttl env repoID tag now
              store).result = .error (.introspection m) := by
            simp only [ResolveFromTagContext, resolveTagHashFromGitObj, htag,
              if_false, hlk1, hu, hlk2, hrp]
          rw [hFr] at hres
          cases hres
        | ok th =>
          cases hbt2 : env.gd.runGitDescribe repoID ttl.gitFileTTL
              ["--tags", "--abbrev=0", th] with
          | error m =>
            have hFr : (ResolveFromTagContext ttl env repoID tag now
                store).result = .error (.introspection m) := by
              simp only [ResolveFromTagContext, resolveTagHashFromGitObj,
                resolveBaseTagFromGitObj, htag, if_false, hlk1, hu, hlk2,
                hrp, hbt2]
            rw [hFr] at hres
            cases hres
          | ok bt0 =>
            cases hcl : env.gd.runGitRevList repoID ttl.gitFileTTL
                ["-n", "1", tag] with
            | error m =>
              have hFr : (ResolveFromTagContext ttl env repoID tag now
                  store).result = .error (.introspection m) := by
                simp only [ResolveFromTagContext, resolveTagHashFromGitObj,
                  resolveBaseTagFromGitObj, resolveCommitHashFromGitObj,
                  htag, if_false, hlk1, hu, hlk2, hrp, hbt2, hcl]
              rw [hFr] at hres
              cases hres
            | ok ch0 =>
              cases hup : upsertE env.createErr
                  ⟨repoID, tag, bt0, ch0, th, now + ttl.gitFileTTL⟩
                  (updateCacheDB ttl env repoID now store).store with
              | error er =>
                have hFr : (ResolveFromTagContext ttl env repoID tag now
                    store).result = .error er := by
                  simp only [ResolveFromTagContext, resolveTagHashFromGitObj,
                    resolveBaseTagFromGitObj, resolveCommitHashFromGitObj,
                    htag, if_false, hlk1, hu, hlk2, hrp, hbt2, hcl, hup]
                rw [hFr] at hres
                cases hres
              | ok s3 =>
                have hFr : (ResolveFromTagContext ttl env repoID tag now
                    store).result =
                    .ok ⟨repoID, tag, bt0, ch0, th, now + ttl.gitFileTTL⟩ := by
                  simp only [ResolveFromTagContext, resolveTagHashFromGitObj,
                    resolveBaseTagFromGitObj, resolveCommitHashFromGitObj,
                    htag, if_false, hlk1, hu, hlk2, hrp, hbt2, hcl, hup]
                have hFs : (ResolveFromTagContext ttl env repoID tag now
                    store).store = s3 := by
                  simp only [ResolveFromTagContext, resolveTagHashFromGitObj,
                    resolveBaseTagFromGitObj, resolveCommitHashFromGitObj,
                    htag, if_false, hlk1, hu, hlk2, hrp, hbt2, hcl, hup]
                rw [hFr] at hres
                have hv : (⟨repoID, tag, bt0, ch0, th,
                    now + ttl.gitFileTTL⟩ : GitTag) = e := by simpa using hres
                have hbt0 : bt0 ≠ "" := by
                  rw [show bt0 = e.baseTag from congrArg GitTag.baseTag hv]
                  exact hbt
                have hch0 : ch0 ≠ "" := by
                  rw [show ch0 = e.commitHash from congrArg GitTag.commitHash hv]
                  exact hch
                have hth0 : th ≠ "" := by
                  rw [show th = e.tagHash from congrArg GitTag.tagHash hv]
                  exact hth
                have hee : now + ttl.gitFileTTL = e.expiredAt :=
                  congrArg GitTag.expiredAt hv
                have hexp0 : now + ttl.gitFileTTL ≠ 0 := by omega
                have hexp2 : now2 ≤ now + ttl.gitFileTTL := by omega
                have hlk3 : lookupByTag repoID tag now2 s3 =
                    some ⟨repoID, tag, bt0, ch0, th, now + ttl.gitFileTTL⟩ :=
                  lookupByTag_after_upsert hlk2 hup rfl rfl hrid htag hbt0
                    hch0 hth0 hexp0 hle hexp2
                rw [hv] at hlk3
                rw [hFs]
                simp only [ResolveFromTagContext, htag, if_false, hlk3]

/-- C6 witness: after a concrete first resolve (fallback path at time 100),
a second call at time 200 under an environment whose git executor and
remote both fail returns the identical entry from the cache alone. -/
theorem c6_witness :
    ResolveFromTagContext (NewCacheTTL 800) failEnv "o/r" "t" 200
        (ResolveFromTagContext (NewCacheTTL 800) echoEnv "o/r" "t" 100
          []).store =
      ⟨.ok ⟨"o/r", "t", "d.--tags.--abbrev=0.rp.t", "rl.-n.1.t", "rp.t",
          24100⟩,
        (ResolveFromTagContext (NewCacheTTL 800) echoEnv "o/r" "t" 100
          []).store,
        [.cacheRead]⟩ :=
  c6_second_call_pure_hit (NewCacheTTL 800) echoEnv failEnv "o/r" "t" 100 200
    [] ⟨"o/r", "t", "d.--tags.--abbrev=0.rp.t", "rl.-n.1.t", "rp.t", 24100⟩
    (by decide) (by decide) (by decide) (by decide) (by decide) (by decide)
    (by decide) (by decide) rfl

end Taghash
